import Mathlib

set_option maxRecDepth 8000

/-!
Shallow embedding of `src/comic_panel_splitter/main.py` (comic-panel-splitter).

Modelling conventions:
* Python `str` is embedded as `List Char` (`Str`); `str.split "."` is `splitOnDot`,
  `".".join` is `joinDot`, both defined by the same recursion Python performs.
* A PIL image is `Img`: a width, a height and a total pixel function returning an
  RGB triple.  `Image.convert "L"` is the ITU-R 601-2 fixed-point luminance used
  by PIL: L = (19595*R + 38470*G + 7471*B + 32768) >>> 16.
* Python float arithmetic on row means and on the blank-row fraction is embedded
  as exact rational arithmetic (`Rat`).  Every comparison performed by the code
  compares a small-denominator rational against 235 or 2/5, where IEEE doubles
  and rationals agree.
* Fallible code returns `Except Err`: `Err.zeroDiv` models Python's
  ZeroDivisionError (division by a zero image dimension), `Err.valueError`
  models `raise ValueError`, `Err.indexError` models the IndexError raised by
  `fields[-2]` on a one-element list.
* Archives are value-level lists of (entry-name, bytes) pairs; the external
  Page Codec (PIL decode) is a parameter `decode : List Nat → Option Img`,
  returning `none` for bytes that raise UnidentifiedImageError.
* In `split_into_rows` the loop accumulates (upper, lower) row bounds and the
  crops are taken at the end; this is equivalent to the source, which crops
  inside the loop, because `Image.crop` is pure.
-/

deriving instance DecidableEq for Except

/-- Error kinds the embedded code can raise. -/
inductive Err where
  | zeroDiv
  | valueError
  | indexError
deriving DecidableEq, Repr

/-- Python strings, embedded as lists of characters. -/
abbrev Str := List Char

/-- Raw bytes of an archive entry. -/
abbrev Bytes := List Nat

/-- A decoded image: explicit size plus a total pixel function (RGB triples).
Only arguments `x < w`, `y < h` are ever sampled by the embedded code. -/
structure Img where
  w : Nat
  h : Nat
  pix : Nat → Nat → Nat × Nat × Nat

/-- PIL `convert "L"` luminance of one RGB pixel (ITU-R 601-2 fixed point). -/
def lum (p : Nat × Nat × Nat) : Nat :=
  (p.1 * 19595 + p.2.1 * 38470 + p.2.2 * 7471 + 32768) / 65536

/-- PIL `Image.crop (left, upper, right, lower)` for boxes inside the image. -/
def Img.crop (img : Img) (left upper right lower : Nat) : Img :=
  ⟨right - left, lower - upper, fun x y => img.pix (left + x) (upper + y)⟩

/-- PIL `transpose Image.ROTATE_90` (90 degrees counterclockwise):
the result has size (h, w) and result pixel (x, y) is the source pixel
(w - 1 - y, x). -/
def Img.rot90 (img : Img) : Img :=
  ⟨img.h, img.w, fun x y => img.pix (img.w - 1 - y) x⟩

/-- PIL `transpose Image.ROTATE_270` (90 degrees clockwise):
the result has size (h, w) and result pixel (x, y) is the source pixel
(y, h - 1 - x); the left edge of the source becomes the top edge. -/
def Img.rot270 (img : Img) : Img :=
  ⟨img.h, img.w, fun x y => img.pix y (img.h - 1 - x)⟩

/-- Extensional image equality: same size and same pixels inside the bounds.
Needed because pixel functions may differ outside the sampled domain. -/
def Img.eqv (a b : Img) : Prop :=
  a.w = b.w ∧ a.h = b.h ∧ ∀ x, x < a.w → ∀ y, y < a.h → a.pix x y = b.pix x y

instance (a b : Img) : Decidable (Img.eqv a b) := by
  unfold Img.eqv; infer_instance

/-- The vertical strip of columns [u, l) at full height (used only to state
reading-order properties of the column split; not part of the source). -/
def Img.cropCols (img : Img) (u l : Nat) : Img :=
  ⟨l - u, img.h, fun x y => img.pix (u + x) y⟩

/-- Source constant WHITE_THRESHOLD = 235. -/
def WHITE_THRESHOLD : ℚ := 235

/-- Source constant PANEL_WIDTH_THRESHOLD = 30 (minimum panel thickness). -/
def PANEL_WIDTH_THRESHOLD : Nat := 30

/-- Source constant WHITE_PAGE_NUM_WHITE_ROWS_THRESHOLD = 0.4 = 2/5. -/
def WHITE_PAGE_NUM_WHITE_ROWS_THRESHOLD : ℚ := 2 / 5

/-- Mean luminance of row y (one element of the source's y_avg_sum list):
the comprehension sum over the row divided by the width. -/
def rowMean (img : Img) (y : Nat) : ℚ :=
  ((List.range img.w).map (fun x => (lum (img.pix x y) : ℚ))).sum / img.w

/-- Row y counts as blank when its mean luminance reaches WHITE_THRESHOLD. -/
def isWhiteRow (img : Img) (y : Nat) : Bool :=
  decide (WHITE_THRESHOLD ≤ rowMean img y)

/-- Source: num_white_rows = sum(1 for z in y_avg_sum if z >= WHITE_THRESHOLD). -/
def num_white_rows (img : Img) : Nat :=
  ((List.range img.h).filter (fun y => isWhiteRow img y)).length

/-- Mean luminance of column x (only used to state properties; the source
reaches columns through rotation). -/
def colMean (img : Img) (x : Nat) : ℚ :=
  ((List.range img.h).map (fun y => (lum (img.pix x y) : ℚ))).sum / img.h

/-- Column x counts as blank when its mean luminance reaches WHITE_THRESHOLD. -/
def isWhiteCol (img : Img) (x : Nat) : Bool :=
  decide (WHITE_THRESHOLD ≤ colMean img x)

/-- One iteration of the scan loop in split_into_rows.  State is
(y_prev_white, bands found so far, as (upper, lower) row bounds). -/
def scanStep (white : Nat → Bool) (st : Nat × List (Nat × Nat)) (y : Nat) :
    Nat × List (Nat × Nat) :=
  if white y then
    if PANEL_WIDTH_THRESHOLD ≤ y - st.1 then (y, st.2 ++ [(st.1, y)])
    else (y, st.2)
  else st

/-- The (upper, lower) row bounds produced by the scan loop of
split_into_rows, including the final trailing-band check. -/
def bandBounds (white : Nat → Bool) (h : Nat) : List (Nat × Nat) :=
  let st := (List.range h).foldl (scanStep white) (0, [])
  if PANEL_WIDTH_THRESHOLD ≤ h - st.1 then st.2 ++ [(st.1, h)] else st.2

/-- Embedding of split_into_rows.  Python raises ZeroDivisionError when the
width is zero (row mean) or the height is zero (blank-row fraction). -/
def split_into_rows (image : Img) : Except Err (List Img) :=
  if image.w = 0 ∨ image.h = 0 then .error .zeroDiv
  else if (num_white_rows image : ℚ) / image.h > WHITE_PAGE_NUM_WHITE_ROWS_THRESHOLD then
    .ok [image]
  else
    .ok ((bandBounds (fun y => isWhiteRow image y) image.h).map
      (fun b => image.crop 0 b.1 image.w b.2))

/-- Embedding of split_into_cols: rotate so the leftmost panel becomes the
uppermost, row-split, rotate every panel back. -/
def split_into_cols (image : Img) : Except Err (List Img) :=
  match split_into_rows image.rot270 with
  | .error e => .error e
  | .ok panels => .ok (panels.map Img.rot90)

/-- Python str.split "." (always returns at least one field). -/
def splitOnDot : Str → List Str
  | [] => [[]]
  | c :: rest =>
    if c = '.' then [] :: splitOnDot rest
    else
      match splitOnDot rest with
      | [] => [[c]]
      | f :: fs => (c :: f) :: fs

/-- Python ".".join. -/
def joinDot : List Str → Str
  | [] => []
  | [f] => f
  | f :: fs => f ++ '.' :: joinDot fs

/-- Decimal digit characters. -/
def digitChar : Nat → Char
  | 0 => '0' | 1 => '1' | 2 => '2' | 3 => '3' | 4 => '4'
  | 5 => '5' | 6 => '6' | 7 => '7' | 8 => '8' | _ => '9'

/-- Decimal digits with structural fuel (the fuel is only there to make the
recursion structural; any fuel above the number suffices). -/
def natDigitsAux : Nat → Nat → List Char
  | 0, _ => []
  | f + 1, n =>
    if n < 10 then [digitChar n]
    else natDigitsAux f (n / 10) ++ [digitChar (n % 10)]

/-- Decimal digits of a natural number, most significant first. -/
def natDigits (n : Nat) : List Char := natDigitsAux (n + 1) n

/-- Python format spec 04d: left-pad the decimal digits with zeros to width 4. -/
def pad4 (n : Nat) : Str :=
  List.replicate (4 - (natDigits n).length) '0' ++ natDigits n

/-- The suffix inserted by get_new_filename: an underscore, the row index
formatted 04d, an underscore, the column index formatted 04d. -/
def tagStr (row col : Nat) : Str :=
  '_' :: pad4 row ++ '_' :: pad4 col

/-- Embedding of the get_new_filename closure of ComicBookPage.split_panels.
fields[-2] on a list with fewer than two elements raises IndexError. -/
def get_new_filename (filename : Str) (row col : Nat) : Except Err Str :=
  let fields := splitOnDot filename
  if 2 ≤ fields.length then
    .ok (joinDot (fields.set (fields.length - 2)
      ((fields.getD (fields.length - 2) []) ++ tagStr row col)))
  else .error .indexError

/-- List.mapM specialised to Except, by the recursion the proofs use;
errors propagate exactly like Python exceptions in a list comprehension. -/
def mapExcept (f : α → Except Err β) : List α → Except Err (List β)
  | [] => .ok []
  | a :: l =>
    match f a with
    | .error e => .error e
    | .ok b => (mapExcept f l).map (fun bs => b :: bs)

/-- A loaded comic book page: a decoded image plus its filename. -/
structure ComicBookPage where
  image : Img
  filename : Str

/-- Embedding of ComicBookPage.from_file: decode the entry bytes, returning
none on UnidentifiedImageError (the RGB conversion is folded into decode). -/
def ComicBookPage.from_file (name : Str) (bytes : Bytes)
    (decode : Bytes → Option Img) : Option ComicBookPage :=
  match decode bytes with
  | none => none
  | some img => some ⟨img, name⟩

/-- Embedding of ComicBookPage.save: compute the output format from the last
dot-separated filename field; only JPG/JPEG (any case) is supported, anything
else raises ValueError.  Returns the (format, image) handed to the external
encoder. -/
def ComicBookPage.save (p : ComicBookPage) : Except Err (Str × Img) :=
  let format := ((splitOnDot p.filename).getLastD []).map Char.toUpper
  if format = "JPG".toList ∨ format = "JPEG".toList then
    .ok ("JPEG".toList, p.image)
  else .error .valueError

/-- Embedding of ComicBookPage.split_panels: row bands, then column panels in
each band, each panel named by get_new_filename (row, col). -/
def ComicBookPage.split_panels (p : ComicBookPage) :
    Except Err (List ComicBookPage) :=
  match split_into_rows p.image with
  | .error e => .error e
  | .ok bands =>
    (mapExcept (fun ri =>
        match split_into_cols ri.2 with
        | .error e => .error e
        | .ok panels =>
          mapExcept (fun ci =>
              (get_new_filename p.filename ri.1 ci.1).map
                (fun fn => ({ image := ci.2, filename := fn } : ComicBookPage)))
            panels.enum)
      bands.enum).map List.flatten

/-- Lexicographic comparison of strings by code point (Python str ordering). -/
def strLe : Str → Str → Bool
  | [], _ => true
  | _ :: _, [] => false
  | a :: as, b :: bs => if a < b then true else if a = b then strLe as bs else false

/-- Stable insertion used by sortNames. -/
def insertSorted (a : Str) : List Str → List Str
  | [] => [a]
  | b :: l => if strLe a b then a :: b :: l else b :: insertSorted a l

/-- Stable lexicographic sort of entry names (Python sorted on str). -/
def sortNames : List Str → List Str
  | [] => []
  | a :: l => insertSorted a (sortNames l)

/-- Open an entry by name: the archive libraries resolve a name through a
name-to-info dictionary, so the last entry with that name wins. -/
def openEntry (entries : List (Str × Bytes)) (name : Str) : Option Bytes :=
  (entries.reverse.find? (fun e => e.1 = name)).map Prod.snd

/-- The RarFile/ZipFile branch of ComicBook.from_file: sort entry names,
drop directory entries, decode each remaining entry, skip decode failures.
Names always come from the archive listing, so the openEntry fallback branch
is unreachable. -/
def loadPages (entries : List (Str × Bytes)) (decode : Bytes → Option Img) :
    List ComicBookPage :=
  (sortNames (entries.map Prod.fst)).filterMap (fun name =>
    if name.getLast? = some '/' then none
    else
      match openEntry entries name with
      | none => none
      | some bytes => ComicBookPage.from_file name bytes decode)

/-- A comic book: its ordered pages. -/
structure ComicBook where
  pages : List ComicBookPage

/-- Embedding of the Path branch of ComicBook.from_file: dispatch on the
path suffix; .cbr opens a RarFile, .cbz a ZipFile (both then run the archive
branch, here loadPages); anything else raises ValueError. -/
def ComicBook.from_file (suffix : Str) (entries : List (Str × Bytes))
    (decode : Bytes → Option Img) : Except Err ComicBook :=
  if suffix = ".cbr".toList then .ok ⟨loadPages entries decode⟩
  else if suffix = ".cbz".toList then .ok ⟨loadPages entries decode⟩
  else .error .valueError

/-- Embedding of the archive branch of ComicBook.save: write one entry named
by each page's filename, in page order; each entry holds the encoder input
produced by ComicBookPage.save. -/
def ComicBook.saveEntries (book : ComicBook) :
    Except Err (List (Str × (Str × Img))) :=
  mapExcept (fun p => (ComicBookPage.save p).map (fun enc => (p.filename, enc)))
    book.pages

/-- Embedding of the Path branch of ComicBook.save.  The source's match has
arms only for .cbr and .cbz and no else: for any other suffix the Path arm
matches, neither branch runs, and the call returns None having written
nothing — modelled as `.ok none`. -/
def ComicBook.save (book : ComicBook) (suffix : Str) :
    Except Err (Option (List (Str × (Str × Img)))) :=
  if suffix = ".cbr".toList then (ComicBook.saveEntries book).map some
  else if suffix = ".cbz".toList then (ComicBook.saveEntries book).map some
  else .ok none

/-- Embedding of ComicBook.split_panels: split every page, concatenate in
page order. -/
def ComicBook.split_panels (book : ComicBook) : Except Err ComicBook :=
  (mapExcept ComicBookPage.split_panels book.pages).map
    (fun ll => ⟨ll.flatten⟩)

/-- Property helper: a list of (upper, lower) cuts is in reading order inside
a length-n axis: each band is nonempty, bands do not overlap and appear in
increasing position, and all bands lie inside the axis. -/
def OrderedCuts (cuts : List (Nat × Nat)) (n : Nat) : Prop :=
  cuts.Chain' (fun p q => p.2 ≤ q.1) ∧ ∀ p ∈ cuts, p.1 < p.2 ∧ p.2 ≤ n

/-- Scan-state invariant: bands found so far are ordered, nonempty and end
at or before y_prev_white. -/
def GoodSt (st : Nat × List (Nat × Nat)) : Prop :=
  st.2.Chain' (fun p q => p.2 ≤ q.1) ∧ (∀ p ∈ st.2, p.1 < p.2) ∧
    ∀ p ∈ st.2, p.2 ≤ st.1

/-- The single panel produced from a page with no blank rows or columns:
the full-page row band, rotated, fully cropped again by the column pass, and
rotated back (used to state the one-panel lemmas; its image equals the page). -/
def onePanelImg (img : Img) : Img :=
  (((img.crop 0 0 img.w img.h).rot270).crop 0 0 img.h img.w).rot90

/-!
Integer-comparison evaluation layer.  Rational arithmetic does not reduce
inside the kernel, so for evaluating the splitter on concrete images the
following mirror of the pipeline replaces each comparison of a rational mean
with the equivalent integer comparison (sum against threshold times count).
The lemmas `split_into_rows_eqN` etc. below prove the mirror equal to the
faithful rational embedding on every image, so all theorems are stated about
the rational versions.
-/

/-- Sum of the luminances of row y (numerator of rowMean). -/
def rowSumN (img : Img) (y : Nat) : Nat :=
  ((List.range img.w).map (fun x => lum (img.pix x y))).sum

/-- Integer form of isWhiteRow: mean ≥ 235 iff sum ≥ 235 * width. -/
def isWhiteRowN (img : Img) (y : Nat) : Bool :=
  235 * img.w ≤ rowSumN img y

/-- Integer form of num_white_rows. -/
def num_white_rowsN (img : Img) : Nat :=
  ((List.range img.h).filter (fun y => isWhiteRowN img y)).length

/-- Integer form of split_into_rows: fraction > 2/5 iff 5 * count > 2 * height. -/
def split_into_rowsN (image : Img) : Except Err (List Img) :=
  if image.w = 0 ∨ image.h = 0 then .error .zeroDiv
  else if 5 * num_white_rowsN image > 2 * image.h then .ok [image]
  else
    .ok ((bandBounds (fun y => isWhiteRowN image y) image.h).map
      (fun b => image.crop 0 b.1 image.w b.2))

/-- Integer form of split_into_cols. -/
def split_into_colsN (image : Img) : Except Err (List Img) :=
  match split_into_rowsN image.rot270 with
  | .error e => .error e
  | .ok panels => .ok (panels.map Img.rot90)

/-- Integer form of ComicBookPage.split_panels. -/
def split_panelsN (p : ComicBookPage) : Except Err (List ComicBookPage) :=
  match split_into_rowsN p.image with
  | .error e => .error e
  | .ok bands =>
    (mapExcept (fun ri =>
        match split_into_colsN ri.2 with
        | .error e => .error e
        | .ok panels =>
          mapExcept (fun ci =>
              (get_new_filename p.filename ri.1 ci.1).map
                (fun fn => ({ image := ci.2, filename := fn } : ComicBookPage)))
            panels.enum)
      bands.enum).map List.flatten

/-- Integer form of ComicBook.split_panels. -/
def bookSplitPanelsN (book : ComicBook) : Except Err ComicBook :=
  (mapExcept split_panelsN book.pages).map (fun ll => ⟨ll.flatten⟩)

/-! Concrete inputs used by the counterexamples and witnesses. -/

/-- An all-black pixel function. -/
def blackPix : Nat → Nat → Nat × Nat × Nat := fun _ _ => (0, 0, 0)

/-- An all-white pixel function. -/
def whitePix : Nat → Nat → Nat × Nat × Nat := fun _ _ => (255, 255, 255)

/-- C1 counterexample: a 1 x 10 all-black page (no blank rows at all), named
with an ordinary extension. -/
def pgC1 : ComicBookPage := ⟨⟨1, 10, blackPix⟩, "a.jpg".toList⟩

/-- C1 witness: a 30 x 30 all-black page. -/
def pgW1 : ComicBookPage := ⟨⟨30, 30, blackPix⟩, "a.jpg".toList⟩

/-- C2: a decode stub (never consulted by the counterexample). -/
def decodeC2 : Bytes → Option Img := fun _ => none

/-- C2: a one-page comic book to save. -/
def bookC2 : ComicBook := ⟨[⟨⟨1, 1, blackPix⟩, "a.jpg".toList⟩]⟩

/-- C3 counterexample and witness image: height 100, width 1; rows 40..49 are
white (a 10-row blank gap, thinner than the 30-row minimum panel thickness),
all other rows black, so the two content bands are 40 and 50 rows thick. -/
def imgC3 : Img :=
  ⟨1, 100, fun _ y => if 40 ≤ y ∧ y < 50 then (255, 255, 255) else (0, 0, 0)⟩

/-- C3 witness image: height 200, width 1; rows 40..109 white (a 70-row gap,
at least the minimum panel thickness), other rows black. -/
def imgW3 : Img :=
  ⟨1, 200, fun _ y => if 40 ≤ y ∧ y < 110 then (255, 255, 255) else (0, 0, 0)⟩

/-- C4 counterexample: a width-1, height-0 image (every row is vacuously
blank). -/
def imgC4 : Img := ⟨1, 0, whitePix⟩

/-- C4 witness: a 1 x 1 all-white image. -/
def imgW4 : Img := ⟨1, 1, whitePix⟩

/-- C6 counterexample archive: a decodable .png entry and an undecodable .txt
entry. -/
def entriesC6 : List (Str × Bytes) := [("a.png".toList, [1]), ("b.txt".toList, [2])]

/-- C6 counterexample decode: only the byte string [1] decodes. -/
def decodeC6 : Bytes → Option Img := fun b => if b = [1] then some ⟨1, 1, blackPix⟩ else none

/-- C6 witness archive: two decodable .jpg entries, physically out of order. -/
def entriesW6 : List (Str × Bytes) := [("b.jpg".toList, [2]), ("a.jpg".toList, [1])]

/-- C6 witness decode: the byte strings [1] and [2] decode. -/
def decodeW6 : Bytes → Option Img :=
  fun b => if b = [1] ∨ b = [2] then some ⟨1, 1, blackPix⟩ else none

/-- C7 counterexample: a book holding two pages with the same filename (as a
zip archive with a duplicated entry name yields). -/
def bookC7 : ComicBook :=
  ⟨[⟨⟨30, 30, blackPix⟩, "a.jpg".toList⟩, ⟨⟨30, 30, blackPix⟩, "a.jpg".toList⟩]⟩

/-- C7 witness: a book of two pages with distinct filenames. -/
def bookW7 : ComicBook :=
  ⟨[⟨⟨30, 30, blackPix⟩, "a.jpg".toList⟩, ⟨⟨30, 30, blackPix⟩, "b.jpg".toList⟩]⟩

/-- C8 witness image: 30 x 30 all-black. -/
def imgW8 : Img := ⟨30, 30, blackPix⟩

/-- C8 witness page: the witness image with a dotted filename. -/
def pgW8 : ComicBookPage := ⟨⟨30, 30, blackPix⟩, "w.jpg".toList⟩

/-- C9 counterexample: a 10 x 10 all-black page (no internal blank bands, but
thinner than the minimum panel thickness). -/
def pgC9 : ComicBookPage := ⟨⟨10, 10, blackPix⟩, "b.jpg".toList⟩

/-- C9 witness: a 30 x 30 all-black page. -/
def pgW9 : ComicBookPage := ⟨⟨30, 30, blackPix⟩, "c.jpg".toList⟩

/-- C10 counterexample: a dotless filename together with a 1 x 1 black image,
which produces no panels, so the filename derivation never runs. -/
def pgC10 : ComicBookPage := ⟨⟨1, 1, blackPix⟩, "noext".toList⟩

/-- C10 witness: a dotless filename on a page that does produce a panel. -/
def pgW10 : ComicBookPage := ⟨⟨30, 30, blackPix⟩, "pageone".toList⟩

/-- C10 witness for the dotted case: an ordinary dotted filename. -/
def pgW10b : ComicBookPage := ⟨⟨30, 30, blackPix⟩, "p.jpg".toList⟩

/-- Numeric value of a digit character (statement helper for pad4). -/
def digitVal (ch : Char) : Nat := ch.toNat - 48

/-- Numeric value of a digit string (statement helper for pad4). -/
def digitsVal (l : Str) : Nat := l.foldl (fun a ch => 10 * a + digitVal ch) 0

/-!
Equivalence of the rational embedding and the integer evaluation layer.
-/

theorem rowMean_eq_rowSumN (img : Img) (y : Nat) :
    rowMean img y = (rowSumN img y : ℚ) / img.w := by
  unfold rowMean rowSumN
  rw [Nat.cast_list_sum, List.map_map]
  rfl

theorem isWhiteRow_eqN (img : Img) (hw : img.w ≠ 0) (y : Nat) :
    isWhiteRow img y = isWhiteRowN img y := by
  have hw' : (0 : ℚ) < img.w := by
    exact_mod_cast Nat.pos_of_ne_zero hw
  unfold isWhiteRow isWhiteRowN WHITE_THRESHOLD
  rw [rowMean_eq_rowSumN, decide_eq_decide]
  rw [le_div_iff₀ hw',
    show ((235 : ℚ) * img.w) = ((235 * img.w : Nat) : ℚ) by push_cast; ring]
  exact Nat.cast_le

theorem num_white_rows_eqN (img : Img) (hw : img.w ≠ 0) :
    num_white_rows img = num_white_rowsN img := by
  unfold num_white_rows num_white_rowsN
  rw [List.filter_congr (fun y _ => isWhiteRow_eqN img hw y)]

theorem split_into_rows_eqN (img : Img) :
    split_into_rows img = split_into_rowsN img := by
  unfold split_into_rows split_into_rowsN
  by_cases hg : img.w = 0 ∨ img.h = 0
  · simp [hg]
  · have hw : img.w ≠ 0 := fun h => hg (Or.inl h)
    have hh : img.h ≠ 0 := fun h => hg (Or.inr h)
    have hh' : (0 : ℚ) < img.h := by exact_mod_cast Nat.pos_of_ne_zero hh
    have hcond : ((num_white_rows img : ℚ) / img.h > WHITE_PAGE_NUM_WHITE_ROWS_THRESHOLD)
        ↔ (5 * num_white_rowsN img > 2 * img.h) := by
      unfold WHITE_PAGE_NUM_WHITE_ROWS_THRESHOLD
      rw [gt_iff_lt, div_lt_div_iff₀ (by norm_num) hh', num_white_rows_eqN img hw,
        show ((2 : ℚ) * img.h) = ((2 * img.h : Nat) : ℚ) by push_cast; ring,
        show ((num_white_rowsN img : ℚ) * 5) = ((5 * num_white_rowsN img : Nat) : ℚ) by
          push_cast; ring,
        Nat.cast_lt]
    have hwhite : (fun y => isWhiteRow img y) = (fun y => isWhiteRowN img y) :=
      funext (fun y => isWhiteRow_eqN img hw y)
    simp only [if_neg hg, hwhite]
    by_cases hc : 5 * num_white_rowsN img > 2 * img.h
    · rw [if_pos (hcond.mpr hc), if_pos hc]
    · rw [if_neg (fun hq => hc (hcond.mp hq)), if_neg hc]

theorem split_into_cols_eqN (img : Img) :
    split_into_cols img = split_into_colsN img := by
  unfold split_into_cols split_into_colsN
  rw [split_into_rows_eqN]

theorem split_panels_eqN (p : ComicBookPage) :
    ComicBookPage.split_panels p = split_panelsN p := by
  unfold ComicBookPage.split_panels split_panelsN
  rw [split_into_rows_eqN]
  cases split_into_rowsN p.image with
  | error e => rfl
  | ok bands =>
    simp only [split_into_cols_eqN]

theorem book_split_panels_eqN (b : ComicBook) :
    ComicBook.split_panels b = bookSplitPanelsN b := by
  unfold ComicBook.split_panels bookSplitPanelsN
  have : ComicBookPage.split_panels = split_panelsN := funext split_panels_eqN
  rw [this]

/-!
Scan-loop lemmas.
-/

theorem foldl_scan_frozen (white : Nat → Bool) :
    ∀ (l : List Nat) (st : Nat × List (Nat × Nat)),
      (∀ y ∈ l, white y = false) → l.foldl (scanStep white) st = st
  | [], _, _ => rfl
  | a :: l, st, h => by
    have ha : white a = false := h a (List.mem_cons_self a l)
    have : scanStep white st a = st := by simp [scanStep, ha]
    rw [List.foldl_cons, this]
    exact foldl_scan_frozen white l st (fun y hy => h y (List.mem_cons_of_mem a hy))

theorem foldl_scan_consec (white : Nat → Bool) :
    ∀ (k p : Nat) (acc : List (Nat × Nat)),
      (∀ y ∈ List.range' (p + 1) k, white y = true) →
      (List.range' (p + 1) k).foldl (scanStep white) (p, acc) = (p + k, acc) := by
  intro k
  induction k with
  | zero => intro p acc _; rfl
  | succ k ih =>
    intro p acc h
    rw [List.range'_succ, List.foldl_cons]
    have hw : white (p + 1) = true := h (p + 1) (by rw [List.range'_succ]; exact List.mem_cons_self _ _)
    have hstep : scanStep white (p, acc) (p + 1) = (p + 1, acc) := by
      simp [scanStep, hw, PANEL_WIDTH_THRESHOLD]
    rw [hstep]
    have := ih (p + 1) acc (fun y hy => h y (by rw [List.range'_succ]; exact List.mem_cons_of_mem _ hy))
    rw [this, Nat.add_assoc, Nat.add_comm 1 k]

theorem scanStep_good (white : Nat → Bool) (st : Nat × List (Nat × Nat)) (y : Nat)
    (hst : GoodSt st) (hy : st.1 ≤ y) :
    GoodSt (scanStep white st y) ∧ (scanStep white st y).1 ≤ y + 1 := by
  obtain ⟨hchain, hne, hend⟩ := hst
  unfold scanStep
  by_cases hw : white y
  · simp only [hw, if_true]
    by_cases hthick : PANEL_WIDTH_THRESHOLD ≤ y - st.1
    · have hlt : st.1 < y := by
        unfold PANEL_WIDTH_THRESHOLD at hthick; omega
      simp only [hthick, if_true]
      refine ⟨⟨?_, ?_, ?_⟩, ?_⟩
      · rw [List.chain'_append]
        refine ⟨hchain, List.chain'_singleton _, ?_⟩
        intro x hx q hq
        simp only [List.head?_cons, Option.mem_def, Option.some.injEq] at hq
        subst hq
        exact hend x (List.mem_of_getLast?_eq_some hx)
      · intro p hp
        rcases List.mem_append.mp hp with h1 | h1
        · exact hne p h1
        · simp at h1; subst h1; exact hlt
      · intro p hp
        rcases List.mem_append.mp hp with h1 | h1
        · exact le_trans (hend p h1) hy
        · simp at h1; subst h1; rfl
      · omega
    · simp only [hthick, if_false]
      exact ⟨⟨hchain, hne, fun p hp => le_trans (hend p hp) hy⟩, by omega⟩
  · simp only [hw]
    simp only [Bool.false_eq_true, if_false]
    exact ⟨⟨hchain, hne, hend⟩, by omega⟩

theorem foldl_range_scan_good (white : Nat → Bool) (n : Nat) :
    GoodSt ((List.range n).foldl (scanStep white) (0, [])) ∧
      ((List.range n).foldl (scanStep white) (0, [])).1 ≤ n := by
  induction n with
  | zero =>
    exact ⟨⟨List.chain'_nil, fun p hp => absurd hp (List.not_mem_nil p), fun p hp =>
      absurd hp (List.not_mem_nil p)⟩, Nat.le_refl 0⟩
  | succ n ih =>
    rw [List.range_succ, List.foldl_append, List.foldl_cons, List.foldl_nil]
    exact scanStep_good white _ n ih.1 ih.2

theorem bandBounds_ordered (white : Nat → Bool) (h : Nat) :
    OrderedCuts (bandBounds white h) h := by
  obtain ⟨⟨hchain, hne, hend⟩, hle⟩ := foldl_range_scan_good white h
  unfold bandBounds OrderedCuts
  by_cases hfin : PANEL_WIDTH_THRESHOLD ≤ h - ((List.range h).foldl (scanStep white) (0, [])).1
  · simp only [hfin, if_true]
    constructor
    · rw [List.chain'_append]
      refine ⟨hchain, List.chain'_singleton _, ?_⟩
      intro x hx q hq
      simp only [List.head?_cons, Option.mem_def, Option.some.injEq] at hq
      subst hq
      exact hend x (List.mem_of_getLast?_eq_some hx)
    · intro p hp
      rcases List.mem_append.mp hp with h1 | h1
      · exact ⟨hne p h1, le_trans (hend p h1) hle⟩
      · simp at h1; subst h1
        unfold PANEL_WIDTH_THRESHOLD at hfin
        exact ⟨by omega, Nat.le_refl h⟩
  · simp only [hfin, if_false]
    exact ⟨hchain, fun p hp => ⟨hne p hp, le_trans (hend p hp) hle⟩⟩

theorem bandBounds_no_white (white : Nat → Bool) (h : Nat)
    (hw : ∀ y < h, white y = false) :
    bandBounds white h = if PANEL_WIDTH_THRESHOLD ≤ h then [(0, h)] else [] := by
  unfold bandBounds
  rw [foldl_scan_frozen white _ _ (fun y hy => hw y (List.mem_range.mp hy))]
  simp

/-!
Image algebra: extensional equality, crops, rotations.
-/

theorem Img.eqv_refl (a : Img) : a.eqv a :=
  ⟨rfl, rfl, fun _ _ _ _ => rfl⟩

theorem Img.eqv_symm {a b : Img} (h : a.eqv b) : b.eqv a := by
  obtain ⟨hw, hh, hp⟩ := h
  exact ⟨hw.symm, hh.symm, fun x hx y hy => (hp x (hw ▸ hx) y (hh ▸ hy)).symm⟩

theorem Img.eqv_trans {a b c : Img} (hab : a.eqv b) (hbc : b.eqv c) : a.eqv c := by
  obtain ⟨hw1, hh1, hp1⟩ := hab
  obtain ⟨hw2, hh2, hp2⟩ := hbc
  exact ⟨hw1.trans hw2, hh1.trans hh2, fun x hx y hy =>
    (hp1 x hx y hy).trans (hp2 x (hw1 ▸ hx) y (hh1 ▸ hy))⟩

theorem crop_full_eqv (img : Img) : (img.crop 0 0 img.w img.h).eqv img := by
  refine ⟨rfl, rfl, fun x _ y _ => ?_⟩
  show img.pix (0 + x) (0 + y) = img.pix x y
  rw [Nat.zero_add, Nat.zero_add]

theorem rot90_rot270_eqv (img : Img) : ((img.rot270).rot90).eqv img := by
  refine ⟨rfl, rfl, fun x hx y hy => ?_⟩
  have hy2 : y < img.h := hy
  show img.pix x (img.h - 1 - (img.h - 1 - y)) = img.pix x y
  congr 1
  omega

theorem strip_eqv (img : Img) (u l : Nat) :
    (((img.rot270).crop 0 u (img.rot270).w l).rot90).eqv (img.cropCols u l) := by
  refine ⟨rfl, rfl, fun x hx y hy => ?_⟩
  have hy2 : y < img.h := hy
  simp only [Img.crop, Img.rot90, Img.rot270, Img.cropCols, Nat.zero_add, Nat.sub_zero]
  congr 1
  omega

theorem onePanel_eqv (img : Img) : (onePanelImg img).eqv img := by
  refine ⟨rfl, rfl, fun x hx y hy => ?_⟩
  have hx2 : x < img.w := hx
  have hy2 : y < img.h := hy
  simp only [onePanelImg, Img.crop, Img.rot90, Img.rot270, Nat.zero_add, Nat.sub_zero]
  congr 1
  omega

/-!
Rotation and congruence facts about row and column means.
-/

theorem list_range_map_sum {M : Type} [AddCommMonoid M] (n : Nat) (f : Nat → M) :
    ((List.range n).map f).sum = ∑ i ∈ Finset.range n, f i := by
  induction n with
  | zero => simp
  | succ n ih =>
    rw [List.range_succ, List.map_append, List.sum_append, Finset.sum_range_succ, ih]
    simp

theorem list_sum_range_reflect {M : Type} [AddCommMonoid M] (n : Nat) (f : Nat → M) :
    ((List.range n).map (fun i => f (n - 1 - i))).sum = ((List.range n).map f).sum := by
  rw [list_range_map_sum, list_range_map_sum, Finset.sum_range_reflect]

theorem rot270_rowMean (img : Img) (j : Nat) :
    rowMean img.rot270 j = colMean img j := by
  unfold rowMean colMean
  show (((List.range img.h).map (fun x => (lum (img.pix j (img.h - 1 - x)) : ℚ))).sum)
      / (img.h : ℚ) = _
  rw [list_sum_range_reflect img.h (fun y => (lum (img.pix j y) : ℚ))]

theorem rot270_isWhiteRow (img : Img) (j : Nat) :
    isWhiteRow img.rot270 j = isWhiteCol img j := by
  unfold isWhiteRow isWhiteCol
  rw [rot270_rowMean]

theorem rowMean_congr {a b : Img} (h : a.eqv b) (y : Nat) (hy : y < a.h) :
    rowMean a y = rowMean b y := by
  obtain ⟨hw, hh, hp⟩ := h
  unfold rowMean
  have hmap : (List.range a.w).map (fun x => (lum (a.pix x y) : ℚ))
      = (List.range b.w).map (fun x => (lum (b.pix x y) : ℚ)) := by
    rw [← hw]
    exact List.map_congr_left (fun x hx => by rw [hp x (List.mem_range.mp hx) y hy])
  rw [hmap, hw]

theorem isWhiteRow_congr {a b : Img} (h : a.eqv b) (y : Nat) (hy : y < a.h) :
    isWhiteRow a y = isWhiteRow b y := by
  unfold isWhiteRow
  rw [rowMean_congr h y hy]

theorem colMean_congr {a b : Img} (h : a.eqv b) (x : Nat) (hx : x < a.w) :
    colMean a x = colMean b x := by
  obtain ⟨hw, hh, hp⟩ := h
  unfold colMean
  have hmap : (List.range a.h).map (fun y => (lum (a.pix x y) : ℚ))
      = (List.range b.h).map (fun y => (lum (b.pix x y) : ℚ)) := by
    rw [← hh]
    exact List.map_congr_left (fun y hy => by rw [hp x hx y (List.mem_range.mp hy)])
  rw [hmap, hh]

theorem isWhiteCol_congr {a b : Img} (h : a.eqv b) (x : Nat) (hx : x < a.w) :
    isWhiteCol a x = isWhiteCol b x := by
  unfold isWhiteCol
  rw [colMean_congr h x hx]

/-!
The single-band lemmas: a page with no blank rows (and tall enough) produces
exactly the full-page band; a band with no blank columns (and wide enough)
produces exactly the full strip.
-/

theorem rows_single (img : Img) (hw : img.w ≠ 0)
    (hh30 : PANEL_WIDTH_THRESHOLD ≤ img.h)
    (hrow : ∀ y < img.h, isWhiteRow img y = false) :
    split_into_rows img = .ok [img.crop 0 0 img.w img.h] := by
  have hh : img.h ≠ 0 := by unfold PANEL_WIDTH_THRESHOLD at hh30; omega
  have hfilter : (List.range img.h).filter (fun y => isWhiteRow img y) = [] := by
    rw [List.filter_eq_nil_iff]
    intro y hy
    simp [hrow y (List.mem_range.mp hy)]
  have hnum : num_white_rows img = 0 := by
    unfold num_white_rows
    rw [hfilter]
    rfl
  unfold split_into_rows
  rw [if_neg (by simp [hw, hh])]
  rw [if_neg (by rw [hnum]; norm_num [WHITE_PAGE_NUM_WHITE_ROWS_THRESHOLD])]
  rw [bandBounds_no_white _ _ hrow, if_pos hh30]
  rfl

theorem cols_single (img : Img) (hh : img.h ≠ 0)
    (hw30 : PANEL_WIDTH_THRESHOLD ≤ img.w)
    (hcol : ∀ x < img.w, isWhiteCol img x = false) :
    split_into_cols img = .ok [((img.rot270).crop 0 0 img.h img.w).rot90] := by
  unfold split_into_cols
  rw [rows_single img.rot270 hh hw30
    (fun y hy => by rw [rot270_isWhiteRow]; exact hcol y hy)]
  rfl

/-!
Filename machinery: splitting on dots, joining, and the structure of
get_new_filename.
-/

theorem splitOnDot_ne_nil (f : Str) : splitOnDot f ≠ [] := by
  cases f with
  | nil => simp [splitOnDot]
  | cons c rest =>
    unfold splitOnDot
    by_cases hc : c = '.'
    · simp [hc]
    · simp only [if_neg hc]
      cases splitOnDot rest <;> simp

theorem splitOnDot_cons_dot (rest : Str) :
    splitOnDot ('.' :: rest) = [] :: splitOnDot rest := by
  rw [splitOnDot]
  simp

theorem splitOnDot_cons_ne (c : Char) (hc : c ≠ '.') (rest : Str) :
    splitOnDot (c :: rest) =
      (c :: (splitOnDot rest).headD []) :: (splitOnDot rest).tail := by
  rw [splitOnDot, if_neg hc]
  cases hsp : splitOnDot rest with
  | nil => exact absurd hsp (splitOnDot_ne_nil rest)
  | cons f fs => rfl

theorem splitOnDot_dotfree : ∀ (f : Str), '.' ∉ f → splitOnDot f = [f]
  | [], _ => rfl
  | c :: rest, h => by
    have hc : c ≠ '.' := fun e => h (List.mem_cons.mpr (Or.inl e.symm))
    have hrest : '.' ∉ rest := fun m => h (List.mem_cons_of_mem c m)
    rw [splitOnDot_cons_ne c hc, splitOnDot_dotfree rest hrest]
    rfl

theorem splitOnDot_append_dot : ∀ (P e : Str),
    splitOnDot (P ++ '.' :: e) = splitOnDot P ++ splitOnDot e
  | [], e => by
    show splitOnDot ('.' :: e) = splitOnDot ([] : Str) ++ splitOnDot e
    rw [splitOnDot_cons_dot]
    rfl
  | c :: P, e => by
    by_cases hc : c = '.'
    · subst hc
      show splitOnDot ('.' :: (P ++ '.' :: e)) = splitOnDot ('.' :: P) ++ splitOnDot e
      rw [splitOnDot_cons_dot, splitOnDot_cons_dot, splitOnDot_append_dot P e]
      rfl
    · show splitOnDot (c :: (P ++ '.' :: e)) = splitOnDot (c :: P) ++ splitOnDot e
      rw [splitOnDot_cons_ne c hc, splitOnDot_cons_ne c hc, splitOnDot_append_dot P e]
      cases hsp : splitOnDot P with
      | nil => exact absurd hsp (splitOnDot_ne_nil P)
      | cons f fs => simp

theorem joinDot_cons (f : Str) (fs : List Str) (hfs : fs ≠ []) :
    joinDot (f :: fs) = f ++ '.' :: joinDot fs := by
  cases fs with
  | nil => exact absurd rfl hfs
  | cons g gs => rfl

theorem joinDot_splitOnDot : ∀ f : Str, joinDot (splitOnDot f) = f
  | [] => rfl
  | c :: rest => by
    by_cases hc : c = '.'
    · subst hc
      rw [splitOnDot_cons_dot, joinDot_cons [] _ (splitOnDot_ne_nil rest),
        joinDot_splitOnDot rest]
      rfl
    · rw [splitOnDot_cons_ne c hc]
      have hj : joinDot (splitOnDot rest) = rest := joinDot_splitOnDot rest
      cases hsp : splitOnDot rest with
      | nil => exact absurd hsp (splitOnDot_ne_nil rest)
      | cons f fs =>
        rw [hsp] at hj
        cases fs with
        | nil =>
          simp only [joinDot] at hj ⊢
          simp only [List.headD, List.tail]
          rw [hj]
        | cons g gs =>
          have h1 : joinDot ((c :: f) :: g :: gs) = (c :: f) ++ '.' :: joinDot (g :: gs) := rfl
          have h2 : joinDot (f :: g :: gs) = f ++ '.' :: joinDot (g :: gs) := rfl
          rw [h2] at hj
          simp only [List.headD, List.tail]
          rw [h1]
          rw [← hj]
          rfl

theorem splitOnDot_length_two (f : Str) (h : '.' ∈ f) :
    2 ≤ (splitOnDot f).length := by
  obtain ⟨P, e, rfl⟩ := List.append_of_mem h
  rw [splitOnDot_append_dot]
  have h1 := List.length_pos.mpr (splitOnDot_ne_nil P)
  have h2 := List.length_pos.mpr (splitOnDot_ne_nil e)
  rw [List.length_append]
  omega

theorem exists_last_dot (f : Str) (h : '.' ∈ f) :
    ∃ P e, f = P ++ '.' :: e ∧ '.' ∉ e := by
  induction f with
  | nil => cases h
  | cons c rest ih =>
    by_cases hr : '.' ∈ rest
    · obtain ⟨P, e, hPE, he⟩ := ih hr
      exact ⟨c :: P, e, by rw [hPE]; rfl, he⟩
    · have hc : c = '.' := by
        rcases List.mem_cons.mp h with h1 | h1
        · exact h1.symm
        · exact absurd h1 hr
      exact ⟨[], rest, by simp [hc], hr⟩

theorem set_last_eq : ∀ (l : List Str) (v : Str), l ≠ [] →
    l.set (l.length - 1) v = l.dropLast ++ [v]
  | [], _, h => absurd rfl h
  | [a], v, _ => rfl
  | a :: b :: m, v, _ => by
    have h1 : (a :: b :: m).length - 1 = ((b :: m).length - 1) + 1 := by simp
    rw [h1]
    show a :: ((b :: m).set ((b :: m).length - 1) v) = (a :: b :: m).dropLast ++ [v]
    rw [set_last_eq (b :: m) v (by simp)]
    rfl

theorem getD_last_eq : ∀ (l : List Str) (hl : l ≠ []),
    l.getD (l.length - 1) [] = l.getLast hl
  | [], h => absurd rfl h
  | [a], _ => rfl
  | a :: b :: m, _ => by
    have ih := getD_last_eq (b :: m) (by simp)
    have h1 : (a :: b :: m).length - 1 = ((b :: m).length - 1) + 1 := by simp
    rw [h1]
    show (b :: m).getD ((b :: m).length - 1) [] = (a :: b :: m).getLast (by simp)
    rw [ih]
    rfl

theorem joinDot_append_singleton : ∀ (l : List Str) (u : Str), l ≠ [] →
    joinDot (l ++ [u]) = joinDot l ++ '.' :: u
  | [], _, h => absurd rfl h
  | [a], u, _ => rfl
  | a :: b :: m, u, _ => by
    have ih := joinDot_append_singleton (b :: m) u (by simp)
    show a ++ '.' :: joinDot ((b :: m) ++ [u]) = (a ++ '.' :: joinDot (b :: m)) ++ '.' :: u
    rw [ih]
    simp

theorem joinDot_dropLast_concat : ∀ (l : List Str) (t : Str) (hl : l ≠ []),
    joinDot (l.dropLast ++ [l.getLast hl ++ t]) = joinDot l ++ t
  | [], _, h => absurd rfl h
  | [a], t, _ => rfl
  | a :: b :: m, t, _ => by
    have ih := joinDot_dropLast_concat (b :: m) t (by simp)
    show joinDot (a :: ((b :: m).dropLast ++ [(b :: m).getLast (by simp) ++ t]))
        = (a ++ '.' :: joinDot (b :: m)) ++ t
    rw [joinDot_cons a _ (by simp), ih]
    simp

theorem get_new_filename_spec (P e : Str) (he : '.' ∉ e) (r c : Nat) :
    get_new_filename (P ++ '.' :: e) r c = .ok (P ++ tagStr r c ++ '.' :: e) := by
  unfold get_new_filename
  rw [splitOnDot_append_dot, splitOnDot_dotfree e he]
  have hne : splitOnDot P ≠ [] := splitOnDot_ne_nil P
  have hpos := List.length_pos.mpr hne
  have hlen : (splitOnDot P ++ [e]).length = (splitOnDot P).length + 1 := by simp
  rw [if_pos (by rw [hlen]; omega)]
  have hidx : (splitOnDot P ++ [e]).length - 2 = (splitOnDot P).length - 1 := by
    rw [hlen]; omega
  rw [hidx]
  have hlt : (splitOnDot P).length - 1 < (splitOnDot P).length := by omega
  rw [List.getD_append _ _ _ _ hlt, getD_last_eq (splitOnDot P) hne,
    List.set_append_left _ _ hlt, set_last_eq (splitOnDot P) _ hne,
    joinDot_append_singleton _ e (by simp),
    joinDot_dropLast_concat (splitOnDot P) (tagStr r c) hne, joinDot_splitOnDot]

theorem get_new_filename_dotless (f : Str) (hf : '.' ∉ f) (r c : Nat) :
    get_new_filename f r c = .error .indexError := by
  unfold get_new_filename
  rw [splitOnDot_dotfree f hf]
  rfl

theorem get_new_filename_ok_dot {f g : Str} {r c : Nat}
    (h : get_new_filename f r c = .ok g) : '.' ∈ f := by
  by_contra hf
  rw [get_new_filename_dotless f hf] at h
  cases h

/-!
Digit strings and injectivity of the panel filename tag.
-/

theorem digitChar_ne_underscore (d : Nat) : digitChar d ≠ '_' := by
  unfold digitChar
  split <;> decide

theorem digitChar_ne_dot (d : Nat) : digitChar d ≠ '.' := by
  unfold digitChar
  split <;> decide

theorem natDigitsAux_congr : ∀ (f1 f2 n : Nat), n < f1 → n < f2 →
    natDigitsAux f1 n = natDigitsAux f2 n := by
  intro f1
  induction f1 with
  | zero => intro f2 n h1; omega
  | succ f1 ih =>
    intro f2 n h1 h2
    cases f2 with
    | zero => omega
    | succ f2 =>
      show (if n < 10 then [digitChar n]
          else natDigitsAux f1 (n / 10) ++ [digitChar (n % 10)]) =
        (if n < 10 then [digitChar n]
          else natDigitsAux f2 (n / 10) ++ [digitChar (n % 10)])
      by_cases h : n < 10
      · rw [if_pos h, if_pos h]
      · rw [if_neg h, if_neg h, ih f2 (n / 10) (by omega) (by omega)]

theorem natDigits_unfold (n : Nat) :
    natDigits n = if n < 10 then [digitChar n]
      else natDigits (n / 10) ++ [digitChar (n % 10)] := by
  show natDigitsAux (n + 1) n = _
  by_cases h : n < 10
  · simp [natDigitsAux, h]
  · show (if n < 10 then [digitChar n]
        else natDigitsAux n (n / 10) ++ [digitChar (n % 10)]) = _
    rw [if_neg h, if_neg h,
      natDigitsAux_congr n (n / 10 + 1) (n / 10) (by omega) (by omega)]
    rfl

theorem natDigits_ne_nil (n : Nat) : natDigits n ≠ [] := by
  rw [natDigits_unfold]
  by_cases h : n < 10 <;> simp [h]

theorem mem_natDigits (n : Nat) : ∀ ch ∈ natDigits n, ∃ d, ch = digitChar d := by
  induction n using Nat.strong_induction_on with
  | _ n ih =>
    intro ch hch
    rw [natDigits_unfold] at hch
    by_cases h : n < 10
    · rw [if_pos h] at hch
      simp only [List.mem_singleton] at hch
      exact ⟨n, hch⟩
    · rw [if_neg h] at hch
      rcases List.mem_append.mp hch with h1 | h1
      · exact ih (n / 10) (by omega) ch h1
      · simp only [List.mem_singleton] at h1
        exact ⟨n % 10, h1⟩

theorem pad4_no_underscore (n : Nat) : '_' ∉ pad4 n := by
  intro h
  rcases List.mem_append.mp h with h1 | h1
  · have := List.eq_of_mem_replicate h1
    cases this
  · obtain ⟨d, hd⟩ := mem_natDigits n '_' h1
    exact digitChar_ne_underscore d hd.symm

theorem pad4_no_dot (n : Nat) : '.' ∉ pad4 n := by
  intro h
  rcases List.mem_append.mp h with h1 | h1
  · have := List.eq_of_mem_replicate h1
    cases this
  · obtain ⟨d, hd⟩ := mem_natDigits n '.' h1
    exact digitChar_ne_dot d hd.symm

theorem tagStr_no_dot (r c : Nat) : '.' ∉ tagStr r c := by
  intro h
  unfold tagStr at h
  rcases List.mem_cons.mp h with h1 | h1
  · cases h1
  · rcases List.mem_append.mp h1 with h2 | h2
    · exact pad4_no_dot r h2
    · rcases List.mem_cons.mp h2 with h3 | h3
      · cases h3
      · exact pad4_no_dot c h3

theorem digitVal_digitChar (d : Nat) (hd : d < 10) : digitVal (digitChar d) = d := by
  interval_cases d <;> decide

theorem digitsVal_append_singleton (l : Str) (ch : Char) :
    digitsVal (l ++ [ch]) = 10 * digitsVal l + digitVal ch := by
  unfold digitsVal
  rw [List.foldl_append]
  rfl

theorem digitsVal_natDigits (n : Nat) : digitsVal (natDigits n) = n := by
  induction n using Nat.strong_induction_on with
  | _ n ih =>
    rw [natDigits_unfold]
    by_cases h : n < 10
    · rw [if_pos h]
      show 10 * 0 + digitVal (digitChar n) = n
      rw [digitVal_digitChar n h]
      omega
    · rw [if_neg h, digitsVal_append_singleton, ih (n / 10) (by omega),
        digitVal_digitChar (n % 10) (by omega)]
      omega

theorem digitsVal_replicate_zero_append (k : Nat) (l : Str) :
    digitsVal (List.replicate k '0' ++ l) = digitsVal l := by
  induction k with
  | zero => rfl
  | succ k ih =>
    rw [List.replicate_succ]
    show digitsVal (List.replicate k '0' ++ l) = digitsVal l
    exact ih

theorem pad4_digitsVal (n : Nat) : digitsVal (pad4 n) = n := by
  unfold pad4
  rw [digitsVal_replicate_zero_append, digitsVal_natDigits]

theorem pad4_inj {m n : Nat} (h : pad4 m = pad4 n) : m = n := by
  have h2 := congrArg digitsVal h
  rwa [pad4_digitsVal, pad4_digitsVal] at h2

theorem append_eq_append_first {x : Char} :
    ∀ {a c b d : Str}, x ∉ a → x ∉ c → a ++ x :: b = c ++ x :: d →
      a = c ∧ b = d := by
  intro a
  induction a with
  | nil =>
    intro c b d _ hc h
    cases c with
    | nil =>
      simp only [List.nil_append] at h
      exact ⟨rfl, (List.cons.injEq _ _ _ _).mp h |>.2⟩
    | cons c0 cs =>
      simp only [List.nil_append, List.cons_append] at h
      obtain ⟨h1, _⟩ := (List.cons.injEq _ _ _ _).mp h
      exact absurd (List.mem_cons.mpr (Or.inl h1)) hc
  | cons a0 as ih =>
    intro c b d ha hc h
    cases c with
    | nil =>
      simp only [List.nil_append, List.cons_append] at h
      obtain ⟨h1, _⟩ := (List.cons.injEq _ _ _ _).mp h
      exact absurd (List.mem_cons.mpr (Or.inl h1.symm)) ha
    | cons c0 cs =>
      simp only [List.cons_append] at h
      obtain ⟨h1, h2⟩ := (List.cons.injEq _ _ _ _).mp h
      have has : x ∉ as := fun m => ha (List.mem_cons_of_mem a0 m)
      have hcs : x ∉ cs := fun m => hc (List.mem_cons_of_mem c0 m)
      obtain ⟨h3, h4⟩ := ih has hcs h2
      exact ⟨by rw [h1, h3], h4⟩

theorem append_eq_append_last {x : Char} {a c b d : Str}
    (hb : x ∉ b) (hd : x ∉ d) (h : a ++ x :: b = c ++ x :: d) :
    a = c ∧ b = d := by
  have h' := congrArg List.reverse h
  simp only [List.reverse_append, List.reverse_cons, List.append_assoc,
    List.singleton_append] at h'
  have hb' : x ∉ b.reverse := fun m => hb (List.mem_reverse.mp m)
  have hd' : x ∉ d.reverse := fun m => hd (List.mem_reverse.mp m)
  obtain ⟨h1, h2⟩ := append_eq_append_first hb' hd' h'
  constructor
  · have := congrArg List.reverse h2
    simpa using this
  · have := congrArg List.reverse h1
    simpa using this

theorem tag_append_inj {P1 P2 e1 e2 : Str} {r1 c1 r2 c2 : Nat}
    (he1 : '.' ∉ e1) (he2 : '.' ∉ e2)
    (h : P1 ++ tagStr r1 c1 ++ '.' :: e1 = P2 ++ tagStr r2 c2 ++ '.' :: e2) :
    P1 = P2 ∧ r1 = r2 ∧ c1 = c2 ∧ e1 = e2 := by
  have h' : (P1 ++ tagStr r1 c1) ++ '.' :: e1 = (P2 ++ tagStr r2 c2) ++ '.' :: e2 := by
    simpa [List.append_assoc] using h
  obtain ⟨h1, he⟩ := append_eq_append_last he1 he2 h'
  have h2 : (P1 ++ '_' :: pad4 r1) ++ '_' :: pad4 c1
      = (P2 ++ '_' :: pad4 r2) ++ '_' :: pad4 c2 := by
    unfold tagStr at h1
    simpa [List.append_assoc] using h1
  obtain ⟨h3, hc⟩ :=
    append_eq_append_last (pad4_no_underscore c1) (pad4_no_underscore c2) h2
  obtain ⟨h4, hr⟩ :=
    append_eq_append_last (pad4_no_underscore r1) (pad4_no_underscore r2) h3
  exact ⟨h4, pad4_inj hr, pad4_inj hc, he⟩

theorem get_new_filename_inj {f1 f2 g : Str} {r1 c1 r2 c2 : Nat}
    (h1 : get_new_filename f1 r1 c1 = .ok g)
    (h2 : get_new_filename f2 r2 c2 = .ok g) :
    f1 = f2 ∧ r1 = r2 ∧ c1 = c2 := by
  obtain ⟨P1, e1, hf1, he1⟩ := exists_last_dot f1 (get_new_filename_ok_dot h1)
  obtain ⟨P2, e2, hf2, he2⟩ := exists_last_dot f2 (get_new_filename_ok_dot h2)
  subst hf1
  subst hf2
  rw [get_new_filename_spec P1 e1 he1] at h1
  rw [get_new_filename_spec P2 e2 he2] at h2
  have hg : P1 ++ tagStr r1 c1 ++ '.' :: e1 = P2 ++ tagStr r2 c2 ++ '.' :: e2 :=
    Except.ok.inj (h1.trans h2.symm)
  obtain ⟨hP, hr, hc, he⟩ := tag_append_inj he1 he2 hg
  exact ⟨by rw [hP, he], hr, hc⟩

theorem get_new_filename_ok_result_dot {f g : Str} {r c : Nat}
    (h : get_new_filename f r c = .ok g) : '.' ∈ g := by
  obtain ⟨P, e, hf, he⟩ := exists_last_dot f (get_new_filename_ok_dot h)
  subst hf
  rw [get_new_filename_spec P e he] at h
  have hg := (Except.ok.inj h).symm
  rw [hg]
  simp

/-!
Inversion lemmas for mapExcept.
-/

theorem mapExcept_ok_iff {α β : Type} {f : α → Except Err β} :
    ∀ (l : List α) (l' : List β),
      mapExcept f l = .ok l' ↔ List.Forall₂ (fun a b => f a = .ok b) l l' := by
  intro l
  induction l with
  | nil =>
    intro l'
    constructor
    · intro h
      have : ([] : List β) = l' := Except.ok.inj h
      subst this
      exact List.Forall₂.nil
    · intro h
      rw [List.forall₂_nil_left_iff.mp h]
      rfl
  | cons a l ih =>
    intro l'
    constructor
    · intro h
      cases hfa : f a with
      | error e => simp [mapExcept, hfa] at h
      | ok b =>
        simp only [mapExcept, hfa] at h
        cases hrec : mapExcept f l with
        | error e => rw [hrec] at h; simp [Except.map] at h
        | ok bs =>
          rw [hrec] at h
          have : b :: bs = l' := Except.ok.inj h
          subst this
          exact List.Forall₂.cons hfa ((ih bs).mp hrec)
    · intro h
      cases h with
      | cons hab htail =>
        simp only [mapExcept, hab, (ih _).mpr htail]
        rfl

theorem mapExcept_ne_error {α β : Type} {f : α → Except Err β} {e : Err} :
    ∀ (l : List α), (∀ a ∈ l, f a ≠ .error e) → mapExcept f l ≠ .error e := by
  intro l
  induction l with
  | nil => intro _ h; cases h
  | cons a l ih =>
    intro hall h
    cases hfa : f a with
    | error e' =>
      simp only [mapExcept, hfa] at h
      exact hall a (List.mem_cons_self a l) (by rw [hfa, Except.error.inj h])
    | ok b =>
      simp only [mapExcept, hfa] at h
      cases hrec : mapExcept f l with
      | error e'' =>
        rw [hrec] at h
        have : e'' = e := Except.error.inj h
        exact ih (fun x hx => hall x (List.mem_cons_of_mem a hx)) (this ▸ hrec)
      | ok bs => rw [hrec] at h; cases h

theorem mapExcept_all_ok {α β : Type} {f : α → Except Err β} {Pr : α → β → Prop} :
    ∀ (l : List α), (∀ a ∈ l, ∃ b, f a = .ok b ∧ Pr a b) →
      ∃ l', mapExcept f l = .ok l' ∧ List.Forall₂ Pr l l' := by
  intro l
  induction l with
  | nil => intro _; exact ⟨[], rfl, List.Forall₂.nil⟩
  | cons a l ih =>
    intro hall
    obtain ⟨b, hfa, hPb⟩ := hall a (List.mem_cons_self a l)
    obtain ⟨bs, hrec, hPs⟩ := ih (fun x hx => hall x (List.mem_cons_of_mem a hx))
    refine ⟨b :: bs, ?_, List.Forall₂.cons hPb hPs⟩
    simp only [mapExcept, hfa, hrec]
    rfl

theorem mapExcept_flatten_empty {α β : Type} {f : α → Except Err (List β)} {E : Err} :
    ∀ (l : List α), (∀ a ∈ l, f a = .ok [] ∨ f a = .error E) →
      (mapExcept f l).map List.flatten = .ok [] ∨
        (mapExcept f l).map List.flatten = .error E := by
  intro l
  induction l with
  | nil => intro _; exact Or.inl rfl
  | cons a l ih =>
    intro hall
    rcases hall a (List.mem_cons_self a l) with hfa | hfa
    · rcases ih (fun x hx => hall x (List.mem_cons_of_mem a hx)) with hok | herr
      · cases hrec : mapExcept f l with
        | error e => rw [hrec] at hok; simp [Except.map] at hok
        | ok ll =>
          rw [hrec] at hok
          have hfl : ll.flatten = ([] : List β) := Except.ok.inj hok
          left
          simp only [mapExcept, hfa, hrec, Except.map, List.flatten, hfl]
          rfl
      · cases hrec : mapExcept f l with
        | error e =>
          rw [hrec] at herr
          have : e = E := Except.error.inj herr
          subst this
          right
          simp only [mapExcept, hfa, hrec, Except.map]
        | ok ll => rw [hrec] at herr; simp [Except.map] at herr
    · right
      simp only [mapExcept, hfa, Except.map]

theorem mapExcept_hits_error {α β : Type} {f : α → Except Err (List β)} {E : Err} :
    ∀ (l : List α), (∀ a ∈ l, f a = .ok [] ∨ f a = .error E) →
      (∃ a ∈ l, f a = .error E) → mapExcept f l = .error E := by
  intro l
  induction l with
  | nil => intro _ h; obtain ⟨a, ha, _⟩ := h; cases ha
  | cons a l ih =>
    intro hall hex
    rcases hall a (List.mem_cons_self a l) with hfa | hfa
    · obtain ⟨x, hx, hfx⟩ := hex
      rcases List.mem_cons.mp hx with h1 | h1
      · subst h1; rw [hfa] at hfx; cases hfx
      · have := ih (fun y hy => hall y (List.mem_cons_of_mem a hy)) ⟨x, h1, hfx⟩
        simp only [mapExcept, hfa, this, Except.map]
    · simp only [mapExcept, hfa]

/-!
Structure of ComicBookPage.split_panels.
-/

theorem split_panels_char (pg : ComicBookPage) (pages : List ComicBookPage)
    (h : pg.split_panels = .ok pages) :
    ∃ bands ll, split_into_rows pg.image = .ok bands ∧ pages = ll.flatten ∧
      List.Forall₂ (fun (ri : Nat × Img) (row : List ComicBookPage) =>
        ∃ panels, split_into_cols ri.2 = .ok panels ∧
          List.Forall₂ (fun (ci : Nat × Img) (q : ComicBookPage) =>
            q.image = ci.2 ∧ get_new_filename pg.filename ri.1 ci.1 = .ok q.filename)
            panels.enum row)
        bands.enum ll := by
  unfold ComicBookPage.split_panels at h
  cases hrows : split_into_rows pg.image with
  | error e =>
    rw [hrows] at h
    have h' : (Except.error e : Except Err (List ComicBookPage)) = .ok pages := h
    simp at h'
  | ok bands =>
    rw [hrows] at h
    have h' : (mapExcept (fun ri =>
        match split_into_cols ri.2 with
        | .error e => .error e
        | .ok panels =>
          mapExcept (fun ci =>
              (get_new_filename pg.filename ri.1 ci.1).map
                (fun fn => ({ image := ci.2, filename := fn } : ComicBookPage)))
            panels.enum) bands.enum).map List.flatten = .ok pages := h
    cases hmap : mapExcept (fun ri =>
        match split_into_cols ri.2 with
        | .error e => .error e
        | .ok panels =>
          mapExcept (fun ci =>
              (get_new_filename pg.filename ri.1 ci.1).map
                (fun fn => ({ image := ci.2, filename := fn } : ComicBookPage)))
            panels.enum) bands.enum with
    | error e => rw [hmap] at h'; simp [Except.map] at h'
    | ok ll =>
      rw [hmap] at h'
      have hpages : pages = ll.flatten := (Except.ok.inj h').symm
      refine ⟨bands, ll, rfl, hpages, ?_⟩
      have hf := (mapExcept_ok_iff _ _).mp hmap
      refine List.Forall₂.imp ?_ hf
      intro ri row hg
      cases hcols : split_into_cols ri.2 with
      | error e =>
        rw [hcols] at hg
        have hg' : (Except.error e : Except Err (List ComicBookPage)) = .ok row := hg
        simp at hg'
      | ok panels =>
        rw [hcols] at hg
        have hg' : mapExcept (fun ci =>
            (get_new_filename pg.filename ri.1 ci.1).map
              (fun fn => ({ image := ci.2, filename := fn } : ComicBookPage)))
            panels.enum = .ok row := hg
        refine ⟨panels, rfl, ?_⟩
        have hf2 := (mapExcept_ok_iff _ _).mp hg'
        refine List.Forall₂.imp ?_ hf2
        intro ci q hq
        cases hgn : get_new_filename pg.filename ri.1 ci.1 with
        | error e => rw [hgn] at hq; simp [Except.map] at hq
        | ok fn =>
          rw [hgn] at hq
          have hq2 : ({ image := ci.2, filename := fn } : ComicBookPage) = q :=
            Except.ok.inj hq
          subst hq2
          exact ⟨rfl, rfl⟩

/-!
A page with no blank rows or columns, at least as large as the minimum panel
thickness in both directions, and a dotted filename, yields exactly one panel.
-/

theorem split_panels_single (pg : ComicBookPage)
    (hw : PANEL_WIDTH_THRESHOLD ≤ pg.image.w) (hh : PANEL_WIDTH_THRESHOLD ≤ pg.image.h)
    (hrow : ∀ y < pg.image.h, isWhiteRow pg.image y = false)
    (hcol : ∀ x < pg.image.w, isWhiteCol pg.image x = false)
    (P e : Str) (hPE : pg.filename = P ++ '.' :: e) (he : '.' ∉ e) :
    pg.split_panels =
      .ok [⟨onePanelImg pg.image, P ++ tagStr 0 0 ++ '.' :: e⟩] := by
  have hw0 : pg.image.w ≠ 0 := by unfold PANEL_WIDTH_THRESHOLD at hw; omega
  have hh0 : pg.image.h ≠ 0 := by unfold PANEL_WIDTH_THRESHOLD at hh; omega
  have hband : split_into_rows pg.image =
      .ok [pg.image.crop 0 0 pg.image.w pg.image.h] :=
    rows_single pg.image hw0 hh hrow
  have hbeqv : (pg.image.crop 0 0 pg.image.w pg.image.h).eqv pg.image :=
    crop_full_eqv pg.image
  have hcolb : ∀ x < (pg.image.crop 0 0 pg.image.w pg.image.h).w,
      isWhiteCol (pg.image.crop 0 0 pg.image.w pg.image.h) x = false := fun x hx => by
    rw [isWhiteCol_congr hbeqv x hx]
    exact hcol x hx
  have hcols : split_into_cols (pg.image.crop 0 0 pg.image.w pg.image.h) =
      .ok [onePanelImg pg.image] :=
    cols_single (pg.image.crop 0 0 pg.image.w pg.image.h) hh0 hw hcolb
  unfold ComicBookPage.split_panels
  rw [hband]
  show (mapExcept _ ([(0, pg.image.crop 0 0 pg.image.w pg.image.h)])).map List.flatten = _
  simp only [mapExcept, hcols, List.enum, List.enumFrom, hPE,
    get_new_filename_spec P e he 0 0, Except.map]
  rfl

/-!
Small inversion facts about the splitters.
-/

theorem rows_error_eq {img : Img} {e : Err} (h : split_into_rows img = .error e) :
    e = .zeroDiv := by
  unfold split_into_rows at h
  by_cases hg : img.w = 0 ∨ img.h = 0
  · rw [if_pos hg] at h
    exact (Except.error.inj h).symm
  · rw [if_neg hg] at h
    by_cases hc : (num_white_rows img : ℚ) / img.h > WHITE_PAGE_NUM_WHITE_ROWS_THRESHOLD
    · rw [if_pos hc] at h; cases h
    · rw [if_neg hc] at h; cases h

theorem cols_error_eq {img : Img} {e : Err} (h : split_into_cols img = .error e) :
    e = .zeroDiv := by
  unfold split_into_cols at h
  cases hrows : split_into_rows img.rot270 with
  | error e' =>
    rw [hrows] at h
    have he : e' = e := Except.error.inj h
    exact he ▸ rows_error_eq hrows
  | ok panels => rw [hrows] at h; cases h

theorem rows_ok_of_pos {img : Img} (hw : img.w ≠ 0) (hh : img.h ≠ 0) :
    ∃ bands, split_into_rows img = .ok bands := by
  unfold split_into_rows
  rw [if_neg (by simp [hw, hh])]
  by_cases hc : (num_white_rows img : ℚ) / img.h > WHITE_PAGE_NUM_WHITE_ROWS_THRESHOLD
  · rw [if_pos hc]; exact ⟨_, rfl⟩
  · rw [if_neg hc]; exact ⟨_, rfl⟩

theorem cols_ok_of_pos {img : Img} (hw : img.w ≠ 0) (hh : img.h ≠ 0) :
    ∃ panels, split_into_cols img = .ok panels := by
  obtain ⟨bands, hbands⟩ := @rows_ok_of_pos img.rot270 hh hw
  unfold split_into_cols
  rw [hbands]
  exact ⟨_, rfl⟩

theorem bands_dims_pos {img : Img} {bands : List Img}
    (h : split_into_rows img = .ok bands) :
    ∀ band ∈ bands, band.w ≠ 0 ∧ band.h ≠ 0 := by
  unfold split_into_rows at h
  by_cases hg : img.w = 0 ∨ img.h = 0
  · rw [if_pos hg] at h; cases h
  · have hw : img.w ≠ 0 := fun h0 => hg (Or.inl h0)
    have hh : img.h ≠ 0 := fun h0 => hg (Or.inr h0)
    rw [if_neg hg] at h
    by_cases hc : (num_white_rows img : ℚ) / img.h > WHITE_PAGE_NUM_WHITE_ROWS_THRESHOLD
    · rw [if_pos hc] at h
      have : [img] = bands := Except.ok.inj h
      subst this
      intro band hband
      rw [List.mem_singleton] at hband
      subst hband
      exact ⟨hw, hh⟩
    · rw [if_neg hc] at h
      have hb : (bandBounds (fun y => isWhiteRow img y) img.h).map
          (fun b => img.crop 0 b.1 img.w b.2) = bands := Except.ok.inj h
      subst hb
      intro band hband
      obtain ⟨p, hp, hcrop⟩ := List.mem_map.mp hband
      obtain ⟨hlt, _⟩ := (bandBounds_ordered (fun y => isWhiteRow img y) img.h).2 p hp
      subst hcrop
      refine ⟨?_, ?_⟩
      · show img.w - 0 ≠ 0
        omega
      · show p.2 - p.1 ≠ 0
        omega

theorem get_new_filename_dotted_ok (f : Str) (hdot : '.' ∈ f) (r c : Nat) :
    ∃ g, get_new_filename f r c = .ok g := by
  obtain ⟨P, e, hPE, he⟩ := exists_last_dot f hdot
  subst hPE
  exact ⟨_, get_new_filename_spec P e he r c⟩

theorem mem_enumFrom_of_mem {α : Type} :
    ∀ (l : List α) (a : α) (k : Nat), a ∈ l → ∃ i, (i, a) ∈ l.enumFrom k := by
  intro l
  induction l with
  | nil => intro a k h; cases h
  | cons x xs ih =>
    intro a k h
    rcases List.mem_cons.mp h with h1 | h1
    · subst h1
      exact ⟨k, List.mem_cons_self _ _⟩
    · obtain ⟨i, hi⟩ := ih a (k + 1) h1
      exact ⟨i, List.mem_cons_of_mem _ hi⟩

theorem mem_enum_of_mem {α : Type} (l : List α) (a : α) (h : a ∈ l) :
    ∃ i, (i, a) ∈ l.enum :=
  mem_enumFrom_of_mem l a 0 h

/-- C2 (code bug): for an archive path with an unsupported extension, loading
raises ValueError, but the Path arm of ComicBook.save has no else branch, so
saving to such a path silently returns having written nothing instead of
raising. -/
theorem c2_save_silently_ignores_unknown_extension :
    ComicBook.from_file ".zip".toList [] decodeC2 = .error .valueError ∧
    ComicBook.save bookC2 ".zip".toList = .ok none ∧
    ComicBook.save bookC2 ".zip".toList ≠ .error .valueError := by
  refine ⟨rfl, rfl, ?_⟩
  intro h
  rw [show ComicBook.save bookC2 ".zip".toList = .ok none from rfl] at h
  exact Except.noConfusion h

/-- C4 counterexample: a width-1, height-0 image has every row blank
(vacuously), yet split_into_rows raises ZeroDivisionError computing the
blank-row fraction instead of returning the single whole-page band. -/
theorem c4_counterexample :
    (∀ y < imgC4.h, isWhiteRow imgC4 y = true) ∧
    split_into_rows imgC4 = .error .zeroDiv ∧
    split_into_rows imgC4 ≠ .ok [imgC4] := by
  refine ⟨?_, rfl, ?_⟩
  · intro y hy
    have h0 : imgC4.h = 0 := rfl
    omega
  · intro h
    rw [show split_into_rows imgC4 = .error .zeroDiv from rfl] at h
    exact Except.noConfusion h

/-- C4 (amended: positive width and height): an image all of whose rows have
mean luminance at or above the whiteness threshold returns exactly one band,
the whole image itself, because the blank-row fraction (here 1) exceeds the
whole-page-blank fraction and segmentation is skipped. -/
theorem c4_amended (img : Img) (hw : 0 < img.w) (hh : 0 < img.h)
    (hwhite : ∀ y < img.h, isWhiteRow img y = true) :
    split_into_rows img = .ok [img] := by
  have hnum : num_white_rows img = img.h := by
    unfold num_white_rows
    have hfe : (List.range img.h).filter (fun y => isWhiteRow img y)
        = List.range img.h := by
      rw [List.filter_eq_self]
      intro y hy
      exact hwhite y (List.mem_range.mp hy)
    rw [hfe, List.length_range]
  unfold split_into_rows
  rw [if_neg (by simp; omega)]
  rw [if_pos ?hcond]
  case hcond =>
    rw [hnum, div_self (by exact_mod_cast Nat.pos_iff_ne_zero.mp hh)]
    norm_num [WHITE_PAGE_NUM_WHITE_ROWS_THRESHOLD]

/-- C4 witness: the concrete 1 x 1 all-white image. -/
theorem c4_witness :
    0 < imgW4.w ∧ 0 < imgW4.h ∧ (∀ y < imgW4.h, isWhiteRow imgW4 y = true) ∧
    split_into_rows imgW4 = .ok [imgW4] := by
  have hwhite : ∀ y < imgW4.h, isWhiteRow imgW4 y = true := by
    have hN : ∀ y, y < imgW4.h → isWhiteRowN imgW4 y = true := by decide
    intro y hy
    rw [isWhiteRow_eqN imgW4 (by decide) y]
    exact hN y hy
  exact ⟨by decide, by decide, hwhite, c4_amended imgW4 (by decide) (by decide) hwhite⟩

/-- C1 counterexample: a 1 x 10 all-black page has no detected blank bands at
all, yet its split yields the empty list of panels — the page contributes no
output page, refuting the non-emptiness invariant as universally stated. -/
theorem c1_counterexample :
    (∀ y < pgC1.image.h, isWhiteRow pgC1.image y = false) ∧
    ComicBookPage.split_panels pgC1 = .ok [] := by
  constructor
  · have hN : ∀ y, y < pgC1.image.h → isWhiteRowN pgC1.image y = false := by decide
    intro y hy
    rw [isWhiteRow_eqN pgC1.image (by decide) y]
    exact hN y hy
  · rw [split_panels_eqN]
    rfl

/-- C1 (amended: the page is at least the minimum panel thickness in both
directions and its filename contains a dot): a page with no detected blank
rows or columns yields exactly one panel, whose image equals the whole page. -/
theorem c1_amended (pg : ComicBookPage)
    (hw : PANEL_WIDTH_THRESHOLD ≤ pg.image.w)
    (hh : PANEL_WIDTH_THRESHOLD ≤ pg.image.h)
    (hrow : ∀ y < pg.image.h, isWhiteRow pg.image y = false)
    (hcol : ∀ x < pg.image.w, isWhiteCol pg.image x = false)
    (hdot : '.' ∈ pg.filename) :
    ∃ q, pg.split_panels = .ok [q] ∧ q.image.eqv pg.image := by
  obtain ⟨P, e, hPE, he⟩ := exists_last_dot pg.filename hdot
  exact ⟨_, split_panels_single pg hw hh hrow hcol P e hPE he, onePanel_eqv pg.image⟩

/-- C1 witness: the concrete 30 x 30 all-black page named a.jpg. -/
theorem c1_witness :
    PANEL_WIDTH_THRESHOLD ≤ pgW1.image.w ∧ PANEL_WIDTH_THRESHOLD ≤ pgW1.image.h ∧
    (∀ y < pgW1.image.h, isWhiteRow pgW1.image y = false) ∧
    (∀ x < pgW1.image.w, isWhiteCol pgW1.image x = false) ∧
    '.' ∈ pgW1.filename ∧
    ∃ q, pgW1.split_panels = .ok [q] ∧ q.image.eqv pgW1.image := by
  have hrow : ∀ y < pgW1.image.h, isWhiteRow pgW1.image y = false := by
    have hN : ∀ y, y < pgW1.image.h → isWhiteRowN pgW1.image y = false := by decide
    intro y hy
    rw [isWhiteRow_eqN pgW1.image (by decide) y]
    exact hN y hy
  have hcol : ∀ x < pgW1.image.w, isWhiteCol pgW1.image x = false := by
    have hN : ∀ x, x < pgW1.image.w → isWhiteRowN (Img.rot270 pgW1.image) x = false := by
      decide
    intro x hx
    rw [← rot270_isWhiteRow, isWhiteRow_eqN (Img.rot270 pgW1.image) (by decide) x]
    exact hN x hx
  exact ⟨by decide, by decide, hrow, hcol, by decide,
    c1_amended pgW1 (by decide) (by decide) hrow hcol (by decide)⟩

/-- C9 counterexample: a 10 x 10 all-black page is a pure single-panel page
(no blank rows or columns anywhere), yet the first split already yields zero
panels, not one, because the page is thinner than the minimum panel
thickness. -/
theorem c9_counterexample :
    (∀ y < pgC9.image.h, isWhiteRow pgC9.image y = false) ∧
    (∀ x < pgC9.image.w, isWhiteCol pgC9.image x = false) ∧
    ComicBookPage.split_panels pgC9 = .ok [] := by
  refine ⟨?_, ?_, ?_⟩
  · have hN : ∀ y, y < pgC9.image.h → isWhiteRowN pgC9.image y = false := by decide
    intro y hy
    rw [isWhiteRow_eqN pgC9.image (by decide) y]
    exact hN y hy
  · have hN : ∀ x, x < pgC9.image.w → isWhiteRowN (Img.rot270 pgC9.image) x = false := by
      decide
    intro x hx
    rw [← rot270_isWhiteRow, isWhiteRow_eqN (Img.rot270 pgC9.image) (by decide) x]
    exact hN x hx
  · rw [split_panels_eqN]
    rfl

/-- C9 (amended: the page is at least the minimum panel thickness in both
directions and its filename contains a dot): on a pure single-panel page,
splitting yields one panel whose image equals the page, and splitting that
panel again is a no-op — one panel whose crop is pixel-identical to its
input. -/
theorem c9_amended (pg : ComicBookPage)
    (hw : PANEL_WIDTH_THRESHOLD ≤ pg.image.w)
    (hh : PANEL_WIDTH_THRESHOLD ≤ pg.image.h)
    (hrow : ∀ y < pg.image.h, isWhiteRow pg.image y = false)
    (hcol : ∀ x < pg.image.w, isWhiteCol pg.image x = false)
    (hdot : '.' ∈ pg.filename) :
    ∃ q, pg.split_panels = .ok [q] ∧ q.image.eqv pg.image ∧
      ∃ q2, q.split_panels = .ok [q2] ∧ q2.image.eqv q.image := by
  obtain ⟨P, e, hPE, he⟩ := exists_last_dot pg.filename hdot
  have h1 := split_panels_single pg hw hh hrow hcol P e hPE he
  refine ⟨⟨onePanelImg pg.image, P ++ tagStr 0 0 ++ '.' :: e⟩, h1, onePanel_eqv pg.image, ?_⟩
  set q : ComicBookPage := ⟨onePanelImg pg.image, P ++ tagStr 0 0 ++ '.' :: e⟩ with hq
  have hqeqv : q.image.eqv pg.image := onePanel_eqv pg.image
  have hw2 : PANEL_WIDTH_THRESHOLD ≤ q.image.w := by rw [hqeqv.1]; exact hw
  have hh2 : PANEL_WIDTH_THRESHOLD ≤ q.image.h := by rw [hqeqv.2.1]; exact hh
  have hrow2 : ∀ y < q.image.h, isWhiteRow q.image y = false := fun y hy => by
    rw [isWhiteRow_congr hqeqv y hy]
    exact hrow y (by rw [← hqeqv.2.1]; exact hy)
  have hcol2 : ∀ x < q.image.w, isWhiteCol q.image x = false := fun x hx => by
    rw [isWhiteCol_congr hqeqv x hx]
    exact hcol x (by rw [← hqeqv.1]; exact hx)
  have hPE2 : q.filename = (P ++ tagStr 0 0) ++ '.' :: e := by
    show P ++ tagStr 0 0 ++ '.' :: e = (P ++ tagStr 0 0) ++ '.' :: e
    rw [List.append_assoc]
  have h2 := split_panels_single q hw2 hh2 hrow2 hcol2 (P ++ tagStr 0 0) e hPE2 he
  exact ⟨_, h2, onePanel_eqv q.image⟩

/-- C9 witness: the concrete 30 x 30 all-black page named c.jpg. -/
theorem c9_witness :
    PANEL_WIDTH_THRESHOLD ≤ pgW9.image.w ∧ PANEL_WIDTH_THRESHOLD ≤ pgW9.image.h ∧
    (∀ y < pgW9.image.h, isWhiteRow pgW9.image y = false) ∧
    (∀ x < pgW9.image.w, isWhiteCol pgW9.image x = false) ∧
    '.' ∈ pgW9.filename ∧
    ∃ q, pgW9.split_panels = .ok [q] ∧ q.image.eqv pgW9.image ∧
      ∃ q2, q.split_panels = .ok [q2] ∧ q2.image.eqv q.image := by
  have hrow : ∀ y < pgW9.image.h, isWhiteRow pgW9.image y = false := by
    have hN : ∀ y, y < pgW9.image.h → isWhiteRowN pgW9.image y = false := by decide
    intro y hy
    rw [isWhiteRow_eqN pgW9.image (by decide) y]
    exact hN y hy
  have hcol : ∀ x < pgW9.image.w, isWhiteCol pgW9.image x = false := by
    have hN : ∀ x, x < pgW9.image.w → isWhiteRowN (Img.rot270 pgW9.image) x = false := by
      decide
    intro x hx
    rw [← rot270_isWhiteRow, isWhiteRow_eqN (Img.rot270 pgW9.image) (by decide) x]
    exact hN x hx
  exact ⟨by decide, by decide, hrow, hcol, by decide,
    c9_amended pgW9 (by decide) (by decide) hrow hcol (by decide)⟩

/-- C3 counterexample: a 100-row page whose only blank rows are 40..49 — two
non-blank bands (40 and 50 rows thick) separated by a wholly blank gap of 10
rows, thinner than the minimum panel thickness, and with blank fraction 1/10
not triggering the sparse fallback.  The claim predicts one panel; the code
produces two, because the minimum-thickness test measures the distance
between successive blank rows (band thickness), not the gap width. -/
theorem c3_counterexample :
    (∀ y < imgC3.h, (isWhiteRow imgC3 y = true ↔ (40 ≤ y ∧ y < 50))) ∧
    ¬ ((num_white_rows imgC3 : ℚ) / imgC3.h > WHITE_PAGE_NUM_WHITE_ROWS_THRESHOLD) ∧
    (split_into_rows imgC3).map List.length = .ok 2 := by
  refine ⟨?_, ?_, ?_⟩
  · have hN : ∀ y, y < imgC3.h → (isWhiteRowN imgC3 y = true ↔ (40 ≤ y ∧ y < 50)) := by
      decide
    intro y hy
    rw [isWhiteRow_eqN imgC3 (by decide) y]
    exact hN y hy
  · have hnum : num_white_rows imgC3 = 10 := by
      rw [num_white_rows_eqN imgC3 (by decide)]
      decide
    intro hgt
    rw [hnum, show imgC3.h = 100 from rfl] at hgt
    norm_num [WHITE_PAGE_NUM_WHITE_ROWS_THRESHOLD] at hgt
  · rw [split_into_rows_eqN]
    decide

/-- C3 (amended): for a page whose blank rows are exactly the gap [a, b) and
whose blank fraction does not trigger the sparse fallback, the row split
yields exactly two panels whenever both BANDS are thick enough — the first
band at least the minimum panel thickness (30 ≤ a) and the trailing band
likewise (30 ≤ h - (b - 1)) — regardless of the width of the gap itself, gap
thinner than the threshold included.  The minimum-thickness test constrains
the spacing between successive blank rows, not the gap width.  (The second
panel starts at the last blank row b - 1.) -/
theorem c3_amended (img : Img) (a b : Nat) (hw : img.w ≠ 0)
    (hwhite : ∀ y < img.h, (isWhiteRow img y = true ↔ (a ≤ y ∧ y < b)))
    (hthickA : PANEL_WIDTH_THRESHOLD ≤ a)
    (hab : a < b) (hbh : b ≤ img.h)
    (hthickB : PANEL_WIDTH_THRESHOLD ≤ img.h - (b - 1))
    (hsparse : ¬ ((num_white_rows img : ℚ) / img.h >
      WHITE_PAGE_NUM_WHITE_ROWS_THRESHOLD)) :
    split_into_rows img =
      .ok [img.crop 0 0 img.w a, img.crop 0 (b - 1) img.w img.h] := by
  have hh : img.h ≠ 0 := by omega
  have hwhiteF : ∀ y < img.h, isWhiteRow img y = false → ¬ (a ≤ y ∧ y < b) := by
    intro y hy hfalse hab'
    rw [(hwhite y hy).mpr hab'] at hfalse
    cases hfalse
  have hwt : ∀ y, a ≤ y → y < b → isWhiteRow img y = true := by
    intro y h1 h2
    exact (hwhite y (by omega)).mpr ⟨h1, h2⟩
  have hwf : ∀ y < img.h, (y < a ∨ b ≤ y) → isWhiteRow img y = false := by
    intro y hy hor
    cases hEq : isWhiteRow img y with
    | false => rfl
    | true =>
      obtain ⟨h1, h2⟩ := (hwhite y hy).mp hEq
      omega
  -- decompose the scanned range into the three phases
  have hsplit : List.range img.h =
      (List.range' 0 a ++ List.range' a (b - a)) ++ List.range' b (img.h - b) := by
    have h1 : List.range' 0 a ++ List.range' (0 + a) (b - a) = List.range' 0 (b - a + a) :=
      List.range'_append_1 0 a (b - a)
    have h2 : List.range' 0 b ++ List.range' (0 + b) (img.h - b) =
        List.range' 0 (img.h - b + b) := List.range'_append_1 0 b (img.h - b)
    rw [List.range_eq_range']
    rw [show (0 : Nat) + a = a from by omega, show b - a + a = b from by omega] at h1
    rw [show (0 : Nat) + b = b from by omega,
      show img.h - b + b = img.h from by omega] at h2
    rw [← h2, ← h1]
  have hfold : (List.range img.h).foldl (scanStep (fun y => isWhiteRow img y)) (0, [])
      = (b - 1, [(0, a)]) := by
    rw [hsplit, List.foldl_append, List.foldl_append]
    have hA : (List.range' 0 a).foldl (scanStep (fun y => isWhiteRow img y)) (0, [])
        = (0, []) := by
      apply foldl_scan_frozen
      intro y hy
      obtain ⟨i, hi, hyi⟩ := List.mem_range'.mp hy
      exact hwf y (by omega) (by omega)
    rw [hA]
    have hB : (List.range' a (b - a)).foldl (scanStep (fun y => isWhiteRow img y)) (0, [])
        = (b - 1, [(0, a)]) := by
      have hba : b - a = (b - a - 1) + 1 := by omega
      rw [hba, List.range'_succ, List.foldl_cons]
      have hstep : scanStep (fun y => isWhiteRow img y) (0, []) a = (a, [(0, a)]) := by
        unfold scanStep
        have hwa : (fun y => isWhiteRow img y) a = true := hwt a (by omega) (by omega)
        rw [hwa]
        simp only [if_true]
        rw [if_pos (by unfold PANEL_WIDTH_THRESHOLD at hthickA ⊢; omega)]
        rfl
      rw [hstep]
      have hC := foldl_scan_consec (fun y => isWhiteRow img y) (b - a - 1) a [(0, a)]
        (by
          intro y hy
          obtain ⟨i, hi, hyi⟩ := List.mem_range'.mp hy
          exact hwt y (by omega) (by omega))
      rw [hC]
      have : a + (b - a - 1) = b - 1 := by omega
      rw [this]
    rw [hB]
    apply foldl_scan_frozen
    intro y hy
    obtain ⟨i, hi, hyi⟩ := List.mem_range'.mp hy
    exact hwf y (by omega) (by omega)
  have hbb : bandBounds (fun y => isWhiteRow img y) img.h = [(0, a), (b - 1, img.h)] := by
    unfold bandBounds
    rw [hfold]
    rw [if_pos (by unfold PANEL_WIDTH_THRESHOLD at hthickB ⊢; omega)]
    rfl
  unfold split_into_rows
  rw [if_neg (by simp [hw, hh]), if_neg hsparse, hbb]
  rfl

/-- C3 witness: a 200-row page with blank gap rows 40..109 (70 rows, at least
the minimum panel thickness) between a 40-row and a 90-row content band; the
split yields exactly the two band crops. -/
theorem c3_witness :
    (∀ y < imgW3.h, (isWhiteRow imgW3 y = true ↔ (40 ≤ y ∧ y < 110))) ∧
    ¬ ((num_white_rows imgW3 : ℚ) / imgW3.h > WHITE_PAGE_NUM_WHITE_ROWS_THRESHOLD) ∧
    split_into_rows imgW3 = .ok [imgW3.crop 0 0 imgW3.w 40, imgW3.crop 0 109 imgW3.w imgW3.h] := by
  have hwhite : ∀ y < imgW3.h, (isWhiteRow imgW3 y = true ↔ (40 ≤ y ∧ y < 110)) := by
    have hN : ∀ y, y < imgW3.h → (isWhiteRowN imgW3 y = true ↔ (40 ≤ y ∧ y < 110)) := by
      decide
    intro y hy
    rw [isWhiteRow_eqN imgW3 (by decide) y]
    exact hN y hy
  have hsparse : ¬ ((num_white_rows imgW3 : ℚ) / imgW3.h >
      WHITE_PAGE_NUM_WHITE_ROWS_THRESHOLD) := by
    have hnum : num_white_rows imgW3 = 70 := by
      rw [num_white_rows_eqN imgW3 (by decide)]
      decide
    intro hgt
    rw [hnum, show imgW3.h = 200 from rfl] at hgt
    norm_num [WHITE_PAGE_NUM_WHITE_ROWS_THRESHOLD] at hgt
  refine ⟨hwhite, hsparse, ?_⟩
  have := c3_amended imgW3 40 110 (by decide) hwhite (by decide) (by decide)
    (by decide) (by decide) hsparse
  simpa using this

/-!
Split-panel equations and the IndexError analysis for dotless filenames.
-/

theorem split_panels_rows_error (pg : ComicBookPage) {e : Err}
    (h : split_into_rows pg.image = .error e) : pg.split_panels = .error e := by
  unfold ComicBookPage.split_panels
  rw [h]

theorem split_panels_rows_ok_eq (pg : ComicBookPage) {bands : List Img}
    (h : split_into_rows pg.image = .ok bands) :
    pg.split_panels = (mapExcept (fun ri =>
        match split_into_cols ri.2 with
        | .error e => .error e
        | .ok panels =>
          mapExcept (fun ci =>
              (get_new_filename pg.filename ri.1 ci.1).map
                (fun fn => ({ image := ci.2, filename := fn } : ComicBookPage)))
            panels.enum)
      bands.enum).map List.flatten := by
  unfold ComicBookPage.split_panels
  rw [h]

theorem snd_mem_of_mem_enumFrom {α : Type} :
    ∀ (l : List α) (k : Nat) (p : Nat × α), p ∈ l.enumFrom k → p.2 ∈ l := by
  intro l
  induction l with
  | nil => intro k p h; cases h
  | cons x xs ih =>
    intro k p h
    rcases List.mem_cons.mp h with h1 | h1
    · subst h1
      exact List.mem_cons_self x xs
    · exact List.mem_cons_of_mem x (ih (k + 1) p h1)

/-- C10 counterexample: the dotless filename noext on a 1 x 1 black page does
NOT make split_panels raise: no panel is detected, the filename derivation is
never reached, and split_panels succeeds with an empty list. -/
theorem c10_counterexample :
    '.' ∉ pgC10.filename ∧ ComicBookPage.split_panels pgC10 = .ok [] := by
  refine ⟨by decide, ?_⟩
  rw [split_panels_eqN]
  rfl

/-- C10 (amended): split_panels raises IndexError only at the filename
derivation, and only when it is reached.  (i) With a dot in the filename,
split_panels never returns IndexError.  (ii) With a dotless filename it can
never succeed with a non-empty panel list: it returns the empty list, or
IndexError, or ZeroDivisionError (degenerate zero-dimension image).
(iii) With a dotless filename, as soon as the image split detects at least
one panel, split_panels returns exactly IndexError. -/
theorem c10_amended :
    (∀ pg : ComicBookPage, '.' ∈ pg.filename →
      pg.split_panels ≠ .error .indexError) ∧
    (∀ pg : ComicBookPage, '.' ∉ pg.filename →
      pg.split_panels = .ok [] ∨ pg.split_panels = .error .indexError ∨
        pg.split_panels = .error .zeroDiv) ∧
    (∀ (pg : ComicBookPage) (bands : List Img), '.' ∉ pg.filename →
      split_into_rows pg.image = .ok bands →
      (∃ band ∈ bands, ∃ p panels, split_into_cols band = .ok (p :: panels)) →
      pg.split_panels = .error .indexError) := by
  refine ⟨?_, ?_, ?_⟩
  · -- dotted filenames never produce IndexError
    intro pg hdot h
    cases hrows : split_into_rows pg.image with
    | error e =>
      rw [split_panels_rows_error pg hrows] at h
      have : e = Err.indexError := Except.error.inj h
      rw [this] at hrows
      cases rows_error_eq hrows
    | ok bands =>
      rw [split_panels_rows_ok_eq pg hrows] at h
      have hne : mapExcept (fun ri =>
          match split_into_cols ri.2 with
          | .error e => .error e
          | .ok panels =>
            mapExcept (fun ci =>
                (get_new_filename pg.filename ri.1 ci.1).map
                  (fun fn => ({ image := ci.2, filename := fn } : ComicBookPage)))
              panels.enum)
          bands.enum ≠ .error .indexError := by
        apply mapExcept_ne_error
        intro ri _ hri
        cases hcols : split_into_cols ri.2 with
        | error e =>
          rw [hcols] at hri
          have : e = Err.indexError := Except.error.inj hri
          rw [this] at hcols
          cases cols_error_eq hcols
        | ok panels =>
          rw [hcols] at hri
          have hri' : mapExcept (fun ci =>
              (get_new_filename pg.filename ri.1 ci.1).map
                (fun fn => ({ image := ci.2, filename := fn } : ComicBookPage)))
              panels.enum = .error .indexError := hri
          revert hri'
          apply mapExcept_ne_error
          intro ci _ hci
          obtain ⟨g, hg⟩ := get_new_filename_dotted_ok pg.filename hdot ri.1 ci.1
          rw [hg] at hci
          cases hci
      cases hmap : mapExcept (fun ri =>
          match split_into_cols ri.2 with
          | .error e => .error e
          | .ok panels =>
            mapExcept (fun ci =>
                (get_new_filename pg.filename ri.1 ci.1).map
                  (fun fn => ({ image := ci.2, filename := fn } : ComicBookPage)))
              panels.enum)
          bands.enum with
      | error e =>
        rw [hmap] at h
        have : e = Err.indexError := Except.error.inj h
        exact hne (this ▸ hmap)
      | ok ll => rw [hmap] at h; cases h
  · -- dotless filenames never succeed with a non-empty result
    intro pg hdot
    cases hrows : split_into_rows pg.image with
    | error e =>
      right; right
      rw [split_panels_rows_error pg hrows, rows_error_eq hrows]
    | ok bands =>
      rw [split_panels_rows_ok_eq pg hrows]
      have hF : ∀ ri ∈ bands.enum, (match split_into_cols ri.2 with
          | .error e => .error e
          | .ok panels =>
            mapExcept (fun ci =>
                (get_new_filename pg.filename ri.1 ci.1).map
                  (fun fn => ({ image := ci.2, filename := fn } : ComicBookPage)))
              panels.enum) = Except.ok ([] : List ComicBookPage) ∨
          (match split_into_cols ri.2 with
          | .error e => .error e
          | .ok panels =>
            mapExcept (fun ci =>
                (get_new_filename pg.filename ri.1 ci.1).map
                  (fun fn => ({ image := ci.2, filename := fn } : ComicBookPage)))
              panels.enum) = Except.error Err.indexError := by
        intro ri hri
        have hmem : ri.2 ∈ bands := snd_mem_of_mem_enumFrom bands 0 ri hri
        obtain ⟨hbw, hbh⟩ := bands_dims_pos hrows ri.2 hmem
        obtain ⟨panels, hcols⟩ := cols_ok_of_pos hbw hbh
        rw [hcols]
        cases panels with
        | nil => left; rfl
        | cons p ps =>
          right
          show mapExcept _ ((0, p) :: ps.enumFrom 1) = Except.error Err.indexError
          simp only [mapExcept, get_new_filename_dotless pg.filename hdot, Except.map]
      rcases mapExcept_flatten_empty bands.enum hF with hok | herr
      · left; exact hok
      · right; left; exact herr
  · -- dotless filename plus at least one detected panel: exactly IndexError
    intro pg bands hdot hrows hex
    rw [split_panels_rows_ok_eq pg hrows]
    have hF : ∀ ri ∈ bands.enum, (match split_into_cols ri.2 with
        | .error e => .error e
        | .ok panels =>
          mapExcept (fun ci =>
              (get_new_filename pg.filename ri.1 ci.1).map
                (fun fn => ({ image := ci.2, filename := fn } : ComicBookPage)))
            panels.enum) = Except.ok ([] : List ComicBookPage) ∨
        (match split_into_cols ri.2 with
        | .error e => .error e
        | .ok panels =>
          mapExcept (fun ci =>
              (get_new_filename pg.filename ri.1 ci.1).map
                (fun fn => ({ image := ci.2, filename := fn } : ComicBookPage)))
            panels.enum) = Except.error Err.indexError := by
      intro ri hri
      have hmem : ri.2 ∈ bands := snd_mem_of_mem_enumFrom bands 0 ri hri
      obtain ⟨hbw, hbh⟩ := bands_dims_pos hrows ri.2 hmem
      obtain ⟨panels, hcols⟩ := cols_ok_of_pos hbw hbh
      rw [hcols]
      cases panels with
      | nil => left; rfl
      | cons p ps =>
        right
        show mapExcept _ ((0, p) :: ps.enumFrom 1) = Except.error Err.indexError
        simp only [mapExcept, get_new_filename_dotless pg.filename hdot, Except.map]
    obtain ⟨band, hband, p, ps, hcolsb⟩ := hex
    obtain ⟨i, hi⟩ := mem_enum_of_mem bands band hband
    have hhit : ∃ ri ∈ bands.enum, (match split_into_cols ri.2 with
        | .error e => .error e
        | .ok panels =>
          mapExcept (fun ci =>
              (get_new_filename pg.filename ri.1 ci.1).map
                (fun fn => ({ image := ci.2, filename := fn } : ComicBookPage)))
            panels.enum) = Except.error Err.indexError := by
      refine ⟨(i, band), hi, ?_⟩
      rw [hcolsb]
      show mapExcept _ ((0, p) :: ps.enumFrom 1) = Except.error Err.indexError
      simp only [mapExcept, get_new_filename_dotless pg.filename hdot, Except.map]
    rw [mapExcept_hits_error bands.enum hF hhit]
    rfl

/-- C10 witness: the dotless page pageone (30 x 30 black, one panel detected)
hits IndexError, while the dotted page p.jpg splits without IndexError. -/
theorem c10_witness :
    ('.' ∉ pgW10.filename ∧ split_into_rows pgW10.image = .ok [pgW10.image.crop 0 0 30 30] ∧
      split_into_cols (pgW10.image.crop 0 0 30 30) = .ok [onePanelImg pgW10.image] ∧
      ComicBookPage.split_panels pgW10 = .error .indexError) ∧
    ('.' ∈ pgW10b.filename ∧ ComicBookPage.split_panels pgW10b ≠ .error .indexError) := by
  have hrow : ∀ y < pgW10.image.h, isWhiteRow pgW10.image y = false := by
    have hN : ∀ y, y < pgW10.image.h → isWhiteRowN pgW10.image y = false := by decide
    intro y hy
    rw [isWhiteRow_eqN pgW10.image (by decide) y]
    exact hN y hy
  have hcol : ∀ x < (pgW10.image.crop 0 0 pgW10.image.w pgW10.image.h).w,
      isWhiteCol (pgW10.image.crop 0 0 pgW10.image.w pgW10.image.h) x = false := by
    have hNc : ∀ x, x < pgW10.image.w → isWhiteRowN (Img.rot270 pgW10.image) x = false := by
      decide
    intro x hx
    rw [isWhiteCol_congr (crop_full_eqv pgW10.image) x hx, ← rot270_isWhiteRow,
      isWhiteRow_eqN (Img.rot270 pgW10.image) (by decide) x]
    exact hNc x hx
  have hrows : split_into_rows pgW10.image = .ok [pgW10.image.crop 0 0 30 30] :=
    rows_single pgW10.image (by decide) (by decide) hrow
  have hcols : split_into_cols (pgW10.image.crop 0 0 30 30) = .ok [onePanelImg pgW10.image] :=
    cols_single (pgW10.image.crop 0 0 pgW10.image.w pgW10.image.h) (by decide) (by decide) hcol
  refine ⟨⟨by decide, hrows, hcols, ?_⟩, by decide, ?_⟩
  · exact c10_amended.2.2 pgW10 [pgW10.image.crop 0 0 30 30] (by decide) hrows
      ⟨pgW10.image.crop 0 0 30 30, List.mem_singleton.mpr rfl,
        onePanelImg pgW10.image, [], hcols⟩
  · exact c10_amended.1 pgW10b (by decide)

/-!
Sorting and loading lemmas for the archive layer.
-/

theorem mem_insertSorted (x a : Str) : ∀ l : List Str,
    (a ∈ insertSorted x l ↔ a = x ∨ a ∈ l) := by
  intro l
  induction l with
  | nil => simp [insertSorted]
  | cons b t ih =>
    unfold insertSorted
    by_cases hle : strLe x b
    · rw [if_pos hle]
      simp [List.mem_cons]
    · rw [if_neg hle]
      rw [List.mem_cons, ih, List.mem_cons]
      tauto

theorem mem_sortNames (a : Str) : ∀ l : List Str, (a ∈ sortNames l ↔ a ∈ l) := by
  intro l
  induction l with
  | nil => simp [sortNames]
  | cons b t ih =>
    unfold sortNames
    rw [mem_insertSorted, ih, List.mem_cons]

theorem filterMap_pages_filenames (f : Str → Option ComicBookPage) :
    ∀ l : List Str, (∀ n ∈ l, ∃ pg, f n = some pg ∧ pg.filename = n) →
      (l.filterMap f).map ComicBookPage.filename = l := by
  intro l
  induction l with
  | nil => intro _; rfl
  | cons n t ih =>
    intro h
    obtain ⟨pg, hfn, hname⟩ := h n (List.mem_cons_self n t)
    rw [List.filterMap_cons, hfn]
    simp only [List.map_cons, hname]
    rw [ih (fun m hm => h m (List.mem_cons_of_mem n hm))]

theorem forall₂_map_eq {α β γ : Type} (f : α → γ) (g : β → γ) :
    ∀ {l : List α} {l' : List β}, List.Forall₂ (fun a b => g b = f a) l l' →
      l'.map g = l.map f := by
  intro l l' h
  induction h with
  | nil => rfl
  | cons hab _ ih => simp only [List.map_cons, hab, ih]

/-- C5: an archive entry appears in the loaded book's page list exactly when
its name is an archive entry name that is not a directory entry and whose
opened bytes decode to an image; in particular an entry whose bytes cannot be
decoded is absent, every other decodable entry is still loaded, and the load
itself is a total function of the archive (it cannot abort on a decode
failure). -/
theorem c5_undecodable_entries_skipped (entries : List (Str × Bytes))
    (decode : Bytes → Option Img) (name : Str) :
    name ∈ (loadPages entries decode).map ComicBookPage.filename ↔
      (name ∈ entries.map Prod.fst ∧ name.getLast? ≠ some '/' ∧
        ∃ img, (openEntry entries name).bind decode = some img) := by
  unfold loadPages
  constructor
  · intro h
    obtain ⟨pg, hpg, hname⟩ := List.mem_map.mp h
    obtain ⟨n, hn, hfn⟩ := List.mem_filterMap.mp hpg
    by_cases hslash : n.getLast? = some '/'
    · rw [if_pos hslash] at hfn
      exact Option.noConfusion hfn
    · rw [if_neg hslash] at hfn
      cases hopen : openEntry entries n with
      | none =>
        rw [hopen] at hfn
        have hfn' : (none : Option ComicBookPage) = some pg := hfn
        exact Option.noConfusion hfn'
      | some bytes =>
        rw [hopen] at hfn
        have hfn2 : ComicBookPage.from_file n bytes decode = some pg := hfn
        unfold ComicBookPage.from_file at hfn2
        cases hdec : decode bytes with
        | none =>
          rw [hdec] at hfn2
          have hfn' : (none : Option ComicBookPage) = some pg := hfn2
          exact Option.noConfusion hfn'
        | some img =>
          rw [hdec] at hfn2
          have hpg2 : ({ image := img, filename := n } : ComicBookPage) = pg :=
            Option.some.inj hfn2
          have hnn : name = n := by rw [← hname, ← hpg2]
          subst hnn
          exact ⟨(mem_sortNames name (entries.map Prod.fst)).mp hn, hslash,
            ⟨img, by rw [hopen]; exact hdec⟩⟩
  · rintro ⟨hmem, hslash, img, hbind⟩
    obtain ⟨bytes, hopen, hdec⟩ := Option.bind_eq_some.mp hbind
    apply List.mem_map.mpr
    refine ⟨⟨img, name⟩, ?_, rfl⟩
    apply List.mem_filterMap.mpr
    refine ⟨name, (mem_sortNames name (entries.map Prod.fst)).mpr hmem, ?_⟩
    rw [if_neg hslash, hopen]
    show ComicBookPage.from_file name bytes decode = some ⟨img, name⟩
    unfold ComicBookPage.from_file
    rw [hdec]

/-- C6 counterexample: an archive with a decodable a.png and an undecodable
b.txt.  The loaded page list is only [a.png] — already not the sorted entry
list — and saving the loaded book aborts with ValueError on the PNG
extension, so load-then-save does not reproduce the sorted entry-name list. -/
theorem c6_counterexample :
    ComicBook.from_file ".cbz".toList entriesC6 decodeC6
        = .ok ⟨loadPages entriesC6 decodeC6⟩ ∧
    (loadPages entriesC6 decodeC6).map ComicBookPage.filename = ["a.png".toList] ∧
    sortNames (entriesC6.map Prod.fst) = ["a.png".toList, "b.txt".toList] ∧
    ComicBook.save ⟨loadPages entriesC6 decodeC6⟩ ".cbz".toList
        = .error .valueError := by
  exact ⟨rfl, by decide, by decide, rfl⟩

/-- C6 (amended: every entry is a non-directory entry whose bytes decode and
whose extension is JPEG-family): loading yields the pages in lexicographically
sorted entry-name order (ignoring physical order), and saving the loaded book
without splitting writes exactly that sorted filename list, in order. -/
theorem c6_amended (entries : List (Str × Bytes)) (decode : Bytes → Option Img)
    (hdir : ∀ n ∈ entries.map Prod.fst, ¬ n.getLast? = some '/')
    (hdec : ∀ n ∈ entries.map Prod.fst,
      ∃ img, (openEntry entries n).bind decode = some img)
    (hjpg : ∀ n ∈ entries.map Prod.fst,
      ((splitOnDot n).getLastD []).map Char.toUpper = "JPG".toList ∨
        ((splitOnDot n).getLastD []).map Char.toUpper = "JPEG".toList) :
    ∃ book, ComicBook.from_file ".cbz".toList entries decode = .ok book ∧
      book.pages.map ComicBookPage.filename = sortNames (entries.map Prod.fst) ∧
      ∃ written, ComicBook.save book ".cbz".toList = .ok (some written) ∧
        written.map Prod.fst = sortNames (entries.map Prod.fst) := by
  refine ⟨⟨loadPages entries decode⟩, rfl, ?_, ?_⟩
  · show (loadPages entries decode).map ComicBookPage.filename = _
    unfold loadPages
    apply filterMap_pages_filenames
    intro n hn
    have hmem : n ∈ entries.map Prod.fst := (mem_sortNames n _).mp hn
    obtain ⟨img, hbind⟩ := hdec n hmem
    obtain ⟨bytes, hopen, hdecb⟩ := Option.bind_eq_some.mp hbind
    refine ⟨⟨img, n⟩, ?_, rfl⟩
    rw [if_neg (hdir n hmem), hopen]
    show ComicBookPage.from_file n bytes decode = some ⟨img, n⟩
    unfold ComicBookPage.from_file
    rw [hdecb]
  · have hnames : (loadPages entries decode).map ComicBookPage.filename
        = sortNames (entries.map Prod.fst) := by
      unfold loadPages
      apply filterMap_pages_filenames
      intro n hn
      have hmem : n ∈ entries.map Prod.fst := (mem_sortNames n _).mp hn
      obtain ⟨img, hbind⟩ := hdec n hmem
      obtain ⟨bytes, hopen, hdecb⟩ := Option.bind_eq_some.mp hbind
      refine ⟨⟨img, n⟩, ?_, rfl⟩
      rw [if_neg (hdir n hmem), hopen]
      show ComicBookPage.from_file n bytes decode = some ⟨img, n⟩
      unfold ComicBookPage.from_file
      rw [hdecb]
    have hsave : ∀ pg ∈ loadPages entries decode,
        ∃ w, (ComicBookPage.save pg).map (fun enc => (pg.filename, enc)) = .ok w ∧
          w.1 = pg.filename := by
      intro pg hpg
      have hfn : pg.filename ∈ sortNames (entries.map Prod.fst) := by
        rw [← hnames]
        exact List.mem_map_of_mem ComicBookPage.filename hpg
      have hmem : pg.filename ∈ entries.map Prod.fst := (mem_sortNames _ _).mp hfn
      unfold ComicBookPage.save
      rcases hjpg pg.filename hmem with hfmt | hfmt
      · rw [hfmt]
        exact ⟨(pg.filename, ("JPEG".toList, pg.image)), by simp [Except.map], rfl⟩
      · rw [hfmt]
        exact ⟨(pg.filename, ("JPEG".toList, pg.image)), by simp [Except.map], rfl⟩
    obtain ⟨written, hmap, hfa⟩ := mapExcept_all_ok (loadPages entries decode) hsave
    refine ⟨written, ?_, ?_⟩
    · show (ComicBook.saveEntries ⟨loadPages entries decode⟩).map some = _
      unfold ComicBook.saveEntries
      rw [hmap]
      rfl
    · rw [forall₂_map_eq ComicBookPage.filename Prod.fst hfa]
      exact hnames

/-- C6 witness: an archive holding b.jpg then a.jpg (physically out of
order), both decodable; loading sorts them to [a.jpg, b.jpg] and saving
writes exactly that list. -/
theorem c6_witness :
    sortNames (entriesW6.map Prod.fst) = ["a.jpg".toList, "b.jpg".toList] ∧
    ∃ book, ComicBook.from_file ".cbz".toList entriesW6 decodeW6 = .ok book ∧
      book.pages.map ComicBookPage.filename = sortNames (entriesW6.map Prod.fst) ∧
      ∃ written, ComicBook.save book ".cbz".toList = .ok (some written) ∧
        written.map Prod.fst = sortNames (entriesW6.map Prod.fst) := by
  refine ⟨by decide, ?_⟩
  apply c6_amended entriesW6 decodeW6 (by decide) ?_ (by decide)
  intro n hn
  have hn' : n = "b.jpg".toList ∨ n = "a.jpg".toList := by
    simpa [entriesW6] using hn
  rcases hn' with h | h <;> subst h
  · exact ⟨⟨1, 1, blackPix⟩, rfl⟩
  · exact ⟨⟨1, 1, blackPix⟩, rfl⟩

/-!
Reading-order structure of the row and column splits.
-/

theorem rows_ordered_cuts (img : Img) (bands : List Img)
    (h : split_into_rows img = .ok bands) :
    ∃ cuts, OrderedCuts cuts img.h ∧
      List.Forall₂ Img.eqv bands (cuts.map (fun p => img.crop 0 p.1 img.w p.2)) := by
  unfold split_into_rows at h
  by_cases hg : img.w = 0 ∨ img.h = 0
  · rw [if_pos hg] at h; cases h
  · have hh : img.h ≠ 0 := fun h0 => hg (Or.inr h0)
    rw [if_neg hg] at h
    by_cases hc : (num_white_rows img : ℚ) / img.h > WHITE_PAGE_NUM_WHITE_ROWS_THRESHOLD
    · rw [if_pos hc] at h
      have hb : [img] = bands := Except.ok.inj h
      subst hb
      refine ⟨[(0, img.h)], ⟨List.chain'_singleton _, ?_⟩, ?_⟩
      · intro p hp
        rw [List.mem_singleton] at hp
        subst hp
        exact ⟨by omega, Nat.le_refl _⟩
      · simp only [List.map_cons, List.map_nil]
        exact List.Forall₂.cons (Img.eqv_symm (crop_full_eqv img)) List.Forall₂.nil
    · rw [if_neg hc] at h
      have hb : (bandBounds (fun y => isWhiteRow img y) img.h).map
          (fun b => img.crop 0 b.1 img.w b.2) = bands := Except.ok.inj h
      subst hb
      exact ⟨bandBounds (fun y => isWhiteRow img y) img.h,
        bandBounds_ordered _ img.h,
        List.forall₂_same.mpr (fun x _ => Img.eqv_refl x)⟩

theorem rot90_eqv_congr {a b : Img} (h : a.eqv b) : (a.rot90).eqv (b.rot90) := by
  obtain ⟨hw, hh, hp⟩ := h
  refine ⟨hh, hw, fun x hx y hy => ?_⟩
  have hx2 : x < a.h := hx
  have hy2 : y < a.w := hy
  show a.pix (a.w - 1 - y) x = b.pix (b.w - 1 - y) x
  rw [← hw]
  exact hp (a.w - 1 - y) (by omega) x (by omega)

theorem cols_ordered_cuts (img : Img) (panels : List Img)
    (h : split_into_cols img = .ok panels) :
    ∃ cuts, OrderedCuts cuts img.w ∧
      List.Forall₂ Img.eqv panels (cuts.map (fun p => img.cropCols p.1 p.2)) := by
  unfold split_into_cols at h
  cases hrows : split_into_rows img.rot270 with
  | error e => rw [hrows] at h; cases h
  | ok bands =>
    rw [hrows] at h
    have hp : bands.map Img.rot90 = panels := Except.ok.inj h
    subst hp
    obtain ⟨cuts, hcuts, hfa⟩ := rows_ordered_cuts img.rot270 bands hrows
    refine ⟨cuts, hcuts, ?_⟩
    rw [List.forall₂_map_left_iff, List.forall₂_map_right_iff]
    rw [List.forall₂_map_right_iff] at hfa
    refine List.Forall₂.imp ?_ hfa
    intro band p hband
    exact Img.eqv_trans (rot90_eqv_congr hband) (strip_eqv img p.1 p.2)

/-- C8: panels are emitted in reading order.  (i) Rotating by ROTATE_270
makes the left edge the top edge (pixel-for-pixel).  (ii) ROTATE_90 undoes
ROTATE_270.  (iii) The row split emits bands as crops at ordered,
non-overlapping, top-to-bottom row cuts.  (iv) The column split — performed
by rotating, reapplying the row segmenter, and rotating each result back —
emits vertical strips at ordered left-to-right column cuts.  (v)
split_panels emits, for each row band in order, that band's column panels in
order, tagging each with its (row, col) indices via get_new_filename — i.e.
row-major reading order. -/
theorem c8_reading_order :
    (∀ (img : Img) (x : Nat), x < img.h →
      (img.rot270).pix x 0 = img.pix 0 (img.h - 1 - x)) ∧
    (∀ img : Img, ((img.rot270).rot90).eqv img) ∧
    (∀ (img : Img) (bands : List Img), split_into_rows img = .ok bands →
      ∃ cuts, OrderedCuts cuts img.h ∧
        List.Forall₂ Img.eqv bands (cuts.map (fun p => img.crop 0 p.1 img.w p.2))) ∧
    (∀ (img : Img) (panels : List Img), split_into_cols img = .ok panels →
      ∃ cuts, OrderedCuts cuts img.w ∧
        List.Forall₂ Img.eqv panels (cuts.map (fun p => img.cropCols p.1 p.2))) ∧
    (∀ (pg : ComicBookPage) (pages : List ComicBookPage), pg.split_panels = .ok pages →
      ∃ bands ll, split_into_rows pg.image = .ok bands ∧ pages = ll.flatten ∧
        List.Forall₂ (fun (ri : Nat × Img) (row : List ComicBookPage) =>
          ∃ panels, split_into_cols ri.2 = .ok panels ∧
            List.Forall₂ (fun (ci : Nat × Img) (q : ComicBookPage) =>
              q.image = ci.2 ∧ get_new_filename pg.filename ri.1 ci.1 = .ok q.filename)
              panels.enum row)
          bands.enum ll) :=
  ⟨fun _ _ _ => rfl, rot90_rot270_eqv, rows_ordered_cuts, cols_ordered_cuts,
    split_panels_char⟩

/-- C8 witness: the 30 x 30 all-black image, its row split, column split and
page split instantiated concretely. -/
theorem c8_witness :
    ((imgW8.rot270).pix 3 0 = imgW8.pix 0 (imgW8.h - 1 - 3)) ∧
    ((imgW8.rot270).rot90).eqv imgW8 ∧
    (∃ cuts, OrderedCuts cuts imgW8.h ∧
      List.Forall₂ Img.eqv [imgW8.crop 0 0 imgW8.w imgW8.h]
        (cuts.map (fun p => imgW8.crop 0 p.1 imgW8.w p.2))) ∧
    (∃ cuts, OrderedCuts cuts imgW8.w ∧
      List.Forall₂ Img.eqv [((imgW8.rot270).crop 0 0 imgW8.h imgW8.w).rot90]
        (cuts.map (fun p => imgW8.cropCols p.1 p.2))) ∧
    (∃ bands ll, split_into_rows pgW8.image = .ok bands ∧
      [(⟨onePanelImg pgW8.image, "w_0000_0000.jpg".toList⟩ : ComicBookPage)] = ll.flatten ∧
      List.Forall₂ (fun (ri : Nat × Img) (row : List ComicBookPage) =>
        ∃ panels, split_into_cols ri.2 = .ok panels ∧
          List.Forall₂ (fun (ci : Nat × Img) (q : ComicBookPage) =>
            q.image = ci.2 ∧ get_new_filename pgW8.filename ri.1 ci.1 = .ok q.filename)
            panels.enum row)
        bands.enum ll) := by
  have hrow : ∀ y < imgW8.h, isWhiteRow imgW8 y = false := by
    have hN : ∀ y, y < imgW8.h → isWhiteRowN imgW8 y = false := by decide
    intro y hy
    rw [isWhiteRow_eqN imgW8 (by decide) y]
    exact hN y hy
  have hcol : ∀ x < imgW8.w, isWhiteCol imgW8 x = false := by
    have hN : ∀ x, x < imgW8.w → isWhiteRowN (Img.rot270 imgW8) x = false := by decide
    intro x hx
    rw [← rot270_isWhiteRow, isWhiteRow_eqN (Img.rot270 imgW8) (by decide) x]
    exact hN x hx
  have hrow8 : ∀ y < pgW8.image.h, isWhiteRow pgW8.image y = false := hrow
  have hcol8 : ∀ x < pgW8.image.w, isWhiteCol pgW8.image x = false := hcol
  have hsingle := split_panels_single pgW8 (by decide) (by decide) hrow8 hcol8
    "w".toList "jpg".toList (by decide) (by decide)
  refine ⟨c8_reading_order.1 imgW8 3 (by decide), c8_reading_order.2.1 imgW8, ?_, ?_, ?_⟩
  · exact c8_reading_order.2.2.1 imgW8 _ (rows_single imgW8 (by decide) (by decide) hrow)
  · exact c8_reading_order.2.2.2.1 imgW8 _ (cols_single imgW8 (by decide) (by decide) hcol)
  · exact c8_reading_order.2.2.2.2 pgW8 _ hsingle

/-!
Pairwise-distinct filenames after splitting: transfer lemmas.
-/

theorem forall₂_mem_right {α β : Type} {R : α → β → Prop} :
    ∀ {l : List α} {l' : List β}, List.Forall₂ R l l' → ∀ b ∈ l', ∃ a ∈ l, R a b := by
  intro l l' h
  induction h with
  | nil => intro b hb; cases hb
  | cons hab htail ih =>
    intro b hb
    rcases List.mem_cons.mp hb with h1 | h1
    · subst h1
      exact ⟨_, List.mem_cons_self _ _, hab⟩
    · obtain ⟨a, ha, hr⟩ := ih b h1
      exact ⟨a, List.mem_cons_of_mem _ ha, hr⟩

theorem pairwise_of_forall₂ {α β : Type} {R : α → β → Prop} {S : α → α → Prop}
    {T : β → β → Prop}
    (himp : ∀ a a' b b', R a b → R a' b' → S a a' → T b b') :
    ∀ {l : List α} {l' : List β}, List.Forall₂ R l l' → l.Pairwise S → l'.Pairwise T := by
  intro l l' hfa
  induction hfa with
  | nil => intro _; exact List.Pairwise.nil
  | cons hab htail ih =>
    intro hp
    rcases List.pairwise_cons.mp hp with ⟨hhead, htl⟩
    refine List.pairwise_cons.mpr ⟨?_, ih htl⟩
    intro b' hb'
    obtain ⟨a', ha', hr⟩ := forall₂_mem_right htail b' hb'
    exact himp _ _ _ _ hab hr (hhead a' ha')

theorem enum_pairwise_fst_ne {α : Type} (l : List α) :
    l.enum.Pairwise (fun p q => p.1 ≠ q.1) := by
  have h : (l.enum.map Prod.fst).Pairwise (· ≠ ·) := List.nodup_enum_map_fst l
  exact List.pairwise_map.mp h

theorem split_panels_name_exists {pg : ComicBookPage} {pages : List ComicBookPage}
    (h : pg.split_panels = .ok pages) :
    ∀ q ∈ pages, ∃ r c, get_new_filename pg.filename r c = .ok q.filename := by
  obtain ⟨bands, ll, _, hpages, hfa⟩ := split_panels_char pg pages h
  subst hpages
  intro q hq
  obtain ⟨row, hrow, hqrow⟩ := List.mem_flatten.mp hq
  obtain ⟨ri, _, panels, _, hfa2⟩ := forall₂_mem_right hfa row hrow
  obtain ⟨ci, _, _, hname⟩ := forall₂_mem_right hfa2 q hqrow
  exact ⟨ri.1, ci.1, hname⟩

theorem split_panels_names_pairwise {pg : ComicBookPage} {pages : List ComicBookPage}
    (h : pg.split_panels = .ok pages) :
    (pages.map ComicBookPage.filename).Pairwise (· ≠ ·) := by
  obtain ⟨bands, ll, _, hpages, hfa⟩ := split_panels_char pg pages h
  subst hpages
  rw [List.map_flatten]
  rw [List.pairwise_flatten]
  constructor
  · -- within one row band: distinct column indices give distinct names
    intro lnames hlnames
    obtain ⟨row, hrow, hmap⟩ := List.mem_map.mp hlnames
    subst hmap
    obtain ⟨ri, _, panels, _, hfa2⟩ := forall₂_mem_right hfa row hrow
    rw [List.pairwise_map]
    exact pairwise_of_forall₂
      (fun ci ci' q q' hq hq' hne heq =>
        hne (get_new_filename_inj (heq ▸ hq.2) hq'.2).2.2)
      hfa2 (enum_pairwise_fst_ne panels)
  · -- across row bands: distinct row indices give distinct names
    rw [List.pairwise_map]
    refine pairwise_of_forall₂
      (R := fun (ri : Nat × Img) (row : List ComicBookPage) =>
        ∃ panels, split_into_cols ri.2 = .ok panels ∧
          List.Forall₂ (fun (ci : Nat × Img) (q : ComicBookPage) =>
            q.image = ci.2 ∧ get_new_filename pg.filename ri.1 ci.1 = .ok q.filename)
            panels.enum row)
      ?_ hfa (enum_pairwise_fst_ne bands)
    intro ri ri' row row' hR hR' hne
    intro x hx y hy
    obtain ⟨panels, _, hfa2⟩ := hR
    obtain ⟨panels', _, hfa2'⟩ := hR'
    obtain ⟨q, hqrow, hxq⟩ := List.mem_map.mp hx
    obtain ⟨q', hqrow', hyq⟩ := List.mem_map.mp hy
    subst hxq
    subst hyq
    obtain ⟨ci, _, _, hname⟩ := forall₂_mem_right hfa2 q hqrow
    obtain ⟨ci', _, _, hname'⟩ := forall₂_mem_right hfa2' q' hqrow'
    intro heq
    exact hne (get_new_filename_inj (heq ▸ hname) hname').2.1

/-- C7 counterexample: a book holding two pages with the same filename, as a
zip archive with a duplicated entry name produces, splits into a book whose
two output filenames coincide — output filenames are not pairwise distinct
for every processed book. -/
theorem c7_counterexample :
    (ComicBook.split_panels bookC7).map (fun b => b.pages.map ComicBookPage.filename)
        = .ok ["a_0000_0000.jpg".toList, "a_0000_0000.jpg".toList] ∧
    ¬ (["a_0000_0000.jpg".toList, "a_0000_0000.jpg".toList] : List Str).Pairwise
        (· ≠ ·) := by
  constructor
  · rw [book_split_panels_eqN]
    decide
  · decide

/-- C7 (amended: the source pages' filenames are pairwise distinct, as when
the archive has no duplicate entry names): all output page filenames of the
split book are pairwise distinct, each derived deterministically from its
parent filename and the panel's row and column indices. -/
theorem c7_amended (book book' : ComicBook)
    (h : book.split_panels = .ok book')
    (hd : (book.pages.map ComicBookPage.filename).Pairwise (· ≠ ·)) :
    (book'.pages.map ComicBookPage.filename).Pairwise (· ≠ ·) := by
  unfold ComicBook.split_panels at h
  cases hmap : mapExcept ComicBookPage.split_panels book.pages with
  | error e => rw [hmap] at h; simp [Except.map] at h
  | ok ll =>
    rw [hmap] at h
    have hb : (⟨ll.flatten⟩ : ComicBook) = book' := Except.ok.inj h
    subst hb
    show ((ll.flatten).map ComicBookPage.filename).Pairwise (· ≠ ·)
    rw [List.map_flatten, List.pairwise_flatten]
    have hfa := (mapExcept_ok_iff _ _).mp hmap
    constructor
    · intro lnames hlnames
      obtain ⟨row, hrow, hmapn⟩ := List.mem_map.mp hlnames
      subst hmapn
      obtain ⟨pg, _, hpg⟩ := forall₂_mem_right hfa row hrow
      exact split_panels_names_pairwise hpg
    · rw [List.pairwise_map]
      have hd' : book.pages.Pairwise
          (fun p q => p.filename ≠ q.filename) := List.pairwise_map.mp hd
      refine pairwise_of_forall₂
        (R := fun pg row => pg.split_panels = .ok row) ?_ hfa hd'
      intro pg pg' row row' hR hR' hne
      intro x hx y hy
      obtain ⟨q, hqrow, hxq⟩ := List.mem_map.mp hx
      obtain ⟨q', hqrow', hyq⟩ := List.mem_map.mp hy
      subst hxq
      subst hyq
      obtain ⟨r, c, hname⟩ := split_panels_name_exists hR q hqrow
      obtain ⟨r', c', hname'⟩ := split_panels_name_exists hR' q' hqrow'
      intro heq
      exact hne (get_new_filename_inj (heq ▸ hname) hname').1

/-- C7 witness: a two-page book with distinct filenames a.jpg and b.jpg;
splitting produces panels named a_0000_0000.jpg and b_0000_0000.jpg, which
are pairwise distinct. -/
theorem c7_witness :
    (bookW7.pages.map ComicBookPage.filename).Pairwise (· ≠ ·) ∧
    ∃ book', ComicBook.split_panels bookW7 = .ok book' ∧
      (book'.pages.map ComicBookPage.filename).Pairwise (· ≠ ·) := by
  have hsplit : ComicBook.split_panels bookW7 = bookSplitPanelsN bookW7 :=
    book_split_panels_eqN bookW7
  refine ⟨by decide, _, hsplit.trans rfl, ?_⟩
  exact c7_amended bookW7 _ (hsplit.trans rfl) (by decide)
